import Mathlib

/-!
Verification of the one-line Nonogram solver (OneLineSolver).

The source is a memoized top-down dynamic program over states
(cur_group, cur_cell).  Each cell of a line is an integer bitmask: bit i
set means color i is still possible there.  The solver narrows every
cell to the union of the colors realized by some globally valid
completion of the line, or reports infeasibility.

The embedding below is a shallow state-passing translation of the
Python class: the two memo tables and the result accumulator become
total functions (out-of-range accesses never occur in the source, which
always guards indices first), and the recursion is driven by an explicit
fuel argument that dominates the decreasing measure of the original
recursion, so every definition is executable by the kernel.
-/

namespace Nonogram

/-- A line: one bitmask per cell. -/
abbrev Cells := List Nat

/-- Python integer range over Int: the list l_bound, l_bound+1, ..., r-1. -/
def intRange (l_bound r : Int) : List Int :=
  (List.range (r - l_bound).toNat).map (fun k : Nat => l_bound + (k : Int))

/-- Translation of OneLineSolver.can_place_color: a block of cells on the
interval from l_bound to r_bound inclusive can all take color clr.  Returns
false immediately when r_bound runs past the end of the line. -/
def can_place_color (cells : Cells) (clr : Nat) (l_bound r_bound : Int) : Bool :=
  if (cells.length : Int) ≤ r_bound then false
  else (intRange l_bound (r_bound + 1)).all fun i =>
    (cells.getD i.toNat 0) &&& (1 <<< clr) != 0

/-- Translation of OneLineSolver.set_place_color acting on the result
accumulator: set bit clr on every cell of the inclusive interval. -/
def set_place_color (result_cell : Nat → Nat) (clr : Nat) (l_bound r_bound : Int) :
    Nat → Nat :=
  fun i => if l_bound ≤ (i : Int) ∧ (i : Int) ≤ r_bound
    then result_cell i ||| (1 <<< clr) else result_cell i

/-- State of the Python OneLineSolver object: generation-stamp table,
memo table, invocation counter and the result accumulator. -/
structure OneLineSolver where
  cache : Nat → Nat → Nat
  calc_fill : Nat → Nat → Nat
  cache_cnt : Nat
  result_cell : Nat → Nat

/-- Freshly constructed engine: all tables zero, counter zero. -/
def OneLineSolver.init (_line_len : Nat) : OneLineSolver :=
  { cache := fun _ _ => 0, calc_fill := fun _ _ => 0,
    cache_cnt := 0, result_cell := fun _ => 0 }

/-- Translation of OneLineSolver.can_fill, structured on an explicit fuel
argument (the source recursion always terminates; fuelFor below gives
enough fuel).  Returns the 0/1 answer together with the updated state. -/
def can_fill_fuel (groups : List (Nat × Nat)) (cells : Cells) :
    Nat → OneLineSolver → Nat → Nat → Nat × OneLineSolver
  | 0, s, _, _ => (0, s)
  | fuel + 1, s, cur_group, cur_cell =>
    if cur_cell = cells.length then
      (if cur_group = groups.length then 1 else 0, s)
    else if s.cache cur_group cur_cell = s.cache_cnt then
      (s.calc_fill cur_group cur_cell, s)
    else
      let ans0 : Nat × OneLineSolver :=
        if can_place_color cells 0 cur_cell cur_cell then
          let r := can_fill_fuel groups cells fuel s cur_group (cur_cell + 1)
          if r.1 ≠ 0 then
            (1, { r.2 with
              result_cell := set_place_color r.2.result_cell 0 cur_cell cur_cell })
          else (0, r.2)
        else (0, s)
      let ans1 : Nat × OneLineSolver :=
        if cur_group < groups.length then
          let cur_color := (groups.getD cur_group (0, 0)).2
          let l_bound : Int := cur_cell
          let r_bound : Int := (cur_cell : Int) + (groups.getD cur_group (0, 0)).1 - 1
          let can_place := can_place_color cells cur_color l_bound r_bound
          let next_cell : Int := r_bound + 1
          let same_next := cur_group + 1 < groups.length ∧
            (groups.getD (cur_group + 1) (0, 0)).2 = cur_color
          let can_place2 :=
            if can_place ∧ same_next then can_place_color cells 0 next_cell next_cell
            else can_place
          let place_white : Bool := if can_place ∧ same_next then true else false
          let next_cell2 := if can_place ∧ same_next then next_cell + 1 else next_cell
          if can_place2 then
            let r := can_fill_fuel groups cells fuel ans0.2 (cur_group + 1) next_cell2.toNat
            if r.1 ≠ 0 then
              let res1 := set_place_color r.2.result_cell cur_color l_bound r_bound
              let res2 := if place_white
                then set_place_color res1 0 (r_bound + 1) (r_bound + 1) else res1
              (1, { r.2 with result_cell := res2 })
            else (ans0.1, r.2)
          else ans0
        else ans0
      (ans1.1, { ans1.2 with
        calc_fill := fun x y =>
          if x = cur_group ∧ y = cur_cell then ans1.1 else ans1.2.calc_fill x y,
        cache := fun x y =>
          if x = cur_group ∧ y = cur_cell then ans1.2.cache_cnt else ans1.2.cache x y })

/-- Decreasing measure of the source recursion at state (g, c). -/
def searchMeasure (groups : List (Nat × Nat)) (cells : Cells) (g c : Nat) : Nat :=
  (groups.length + 1 - g) * (cells.length + 2) + (cells.length + 1 - c)

/-- Fuel strictly dominating the measure of every state. -/
def fuelFor (groups : List (Nat × Nat)) (cells : Cells) : Nat :=
  (groups.length + 1) * (cells.length + 2) + cells.length + 2

/-- The method can_fill of the source, with the canonical fuel. -/
def OneLineSolver.can_fill (s : OneLineSolver) (groups : List (Nat × Nat))
    (cells : Cells) (cur_group cur_cell : Nat) : Nat × OneLineSolver :=
  can_fill_fuel groups cells (fuelFor groups cells) s cur_group cur_cell

/-- Translation of OneLineSolver.update_state: bump the generation counter,
reset the accumulator, run the search from (0, 0); on failure return false
with the line untouched, on success overwrite every cell from the
accumulator.  Returns (answer, new line, new engine state). -/
def OneLineSolver.update_state (s : OneLineSolver) (groups : List (Nat × Nat))
    (cells : Cells) : Bool × Cells × OneLineSolver :=
  let s1 : OneLineSolver :=
    { s with cache_cnt := s.cache_cnt + 1, result_cell := fun _ => 0 }
  let r := s1.can_fill groups cells 0 0
  if r.1 = 0 then (false, cells, r.2)
  else (true, (List.range cells.length).map r.2.result_cell, r.2)

/-- Length of group g (0 when out of range, matching getD). -/
def glen (groups : List (Nat × Nat)) (g : Nat) : Nat := (groups.getD g (0, 0)).1

/-- Color of group g. -/
def gcol (groups : List (Nat × Nat)) (g : Nat) : Nat := (groups.getD g (0, 0)).2

/-- The next group exists and has the same color, so a background
separator cell is mandatory after group g. -/
def sepQ (groups : List (Nat × Nat)) (g : Nat) : Prop :=
  g + 1 < groups.length ∧ gcol groups (g + 1) = gcol groups g

instance (groups : List (Nat × Nat)) (g : Nat) : Decidable (sepQ groups g) := by
  unfold sepQ; infer_instance

/-- Cell index from which the search continues after placing group g at c. -/
def nextOf (groups : List (Nat × Nat)) (g c : Nat) : Nat :=
  c + glen groups g + (if sepQ groups g then 1 else 0)

/-- Guard of the span placement of group g at cell c, exactly as the
search checks it. -/
def spanOK (groups : List (Nat × Nat)) (cells : Cells) (g c : Nat) : Prop :=
  can_place_color cells (gcol groups g) (c : Int)
    ((c : Int) + ((glen groups g : Nat) : Int) - 1) = true

/-- Guard of the mandatory separator cell after group g placed at c. -/
def sepOK (groups : List (Nat × Nat)) (cells : Cells) (g c : Nat) : Prop :=
  can_place_color cells 0 ((c + glen groups g : Nat) : Int)
    ((c + glen groups g : Nat) : Int) = true

/-- Full guard of branch B of the search: the span fits with the group
color available everywhere, and, when the next group shares the color,
the separator cell is available too. -/
def placeOK (groups : List (Nat × Nat)) (cells : Cells) (g c : Nat) : Prop :=
  spanOK groups cells g c ∧ (sepQ groups g → sepOK groups cells g c)

/-- A valid completion of the line from cell c onward using the groups
from index g onward.  The assignment a gives every cell its color; each
constructor mirrors one step of the feasibility search: place a
background cell, or place the current group followed by a mandatory
background separator exactly when the next group has the same color. -/
inductive SValid (groups : List (Nat × Nat)) (cells : Cells) :
    Nat → Nat → (Nat → Nat) → Prop
  | base (a : Nat → Nat) : SValid groups cells groups.length cells.length a
  | white (g c : Nat) (a : Nat → Nat)
      (hc : c < cells.length)
      (hbit : (cells.getD c 0).testBit 0 = true)
      (ha : a c = 0)
      (hrec : SValid groups cells g (c + 1) a) :
      SValid groups cells g c a
  | groupSep (g c : Nat) (a : Nat → Nat)
      (hg : g < groups.length)
      (hc : c < cells.length)
      (hsep : sepQ groups g)
      (hspan : ∀ j, c ≤ j → j < c + glen groups g →
        a j = gcol groups g ∧ (cells.getD j 0).testBit (gcol groups g) = true)
      (hsc : c + glen groups g < cells.length)
      (hsbit : (cells.getD (c + glen groups g) 0).testBit 0 = true)
      (hsa : a (c + glen groups g) = 0)
      (hrec : SValid groups cells (g + 1) (c + glen groups g + 1) a) :
      SValid groups cells g c a
  | groupLast (g c : Nat) (a : Nat → Nat)
      (hg : g < groups.length)
      (hc : c < cells.length)
      (hsep : ¬ sepQ groups g)
      (hfit : c + glen groups g ≤ cells.length)
      (hspan : ∀ j, c ≤ j → j < c + glen groups g →
        a j = gcol groups g ∧ (cells.getD j 0).testBit (gcol groups g) = true)
      (hrec : SValid groups cells (g + 1) (c + glen groups g) a) :
      SValid groups cells g c a

/-- Feasibility of the suffix from state (g, c). -/
def feas (groups : List (Nat × Nat)) (cells : Cells) (g c : Nat) : Prop :=
  ∃ a, SValid groups cells g c a

/-- Assignment produced by placing group g at cell c on top of a. -/
def overwriteG (groups : List (Nat × Nat)) (g c : Nat) (a : Nat → Nat) : Nat → Nat :=
  fun j => if c ≤ j ∧ j < c + glen groups g then gcol groups g
    else if j = c + glen groups g ∧ sepQ groups g then 0 else a j

/-- Minimum number of cells needed by a groups list: the sum of the
lengths plus one separator between each pair of adjacent same-color
groups. -/
def minSpanList : List (Nat × Nat) → Nat
  | [] => 0
  | [p] => p.1
  | p :: q :: rest => p.1 + (if q.2 = p.2 then 1 else 0) + minSpanList (q :: rest)

/-- Minimum span of the groups from index g onward. -/
def minSpanFrom (groups : List (Nat × Nat)) (g : Nat) : Nat :=
  minSpanList (groups.drop g)

/-- States reachable by the search started at (g0, c0): every branch
taken is guarded exactly as in can_fill. -/
inductive Reach (groups : List (Nat × Nat)) (cells : Cells) (g0 c0 : Nat) :
    Nat → Nat → Prop
  | root : Reach groups cells g0 c0 g0 c0
  | stepA (g c : Nat) (h : Reach groups cells g0 c0 g c) (hc : c ≠ cells.length)
      (hpl : can_place_color cells 0 (c : Int) (c : Int) = true) :
      Reach groups cells g0 c0 g (c + 1)
  | stepB (g c : Nat) (h : Reach groups cells g0 c0 g c) (hc : c ≠ cells.length)
      (hg : g < groups.length) (hpl : placeOK groups cells g c) :
      Reach groups cells g0 c0 (g + 1) (nextOf groups g c)

/-- The pair (cell i, color b) is recorded in the result accumulator
when the state (g, c) is computed and the corresponding branch of the
search succeeds. -/
def markAt (groups : List (Nat × Nat)) (cells : Cells) (g c i b : Nat) : Prop :=
  (b = 0 ∧ i = c ∧ can_place_color cells 0 (c : Int) (c : Int) = true ∧
    feas groups cells g (c + 1))
  ∨ (g < groups.length ∧ placeOK groups cells g c ∧
      feas groups cells (g + 1) (nextOf groups g c) ∧
      ((c ≤ i ∧ i < c + glen groups g ∧ b = gcol groups g)
        ∨ (sepQ groups g ∧ i = c + glen groups g ∧ b = 0)))

/-- State (g, c) carries a memo entry of the current generation. -/
def stamped (s : OneLineSolver) (g c : Nat) : Prop := s.cache g c = s.cache_cnt

/-- Either memoized this generation, or the terminal cell (which the
search answers before touching the memo). -/
def stampedOrBase (cells : Cells) (s : OneLineSolver) (g c : Nat) : Prop :=
  stamped s g c ∨ c = cells.length

/-- Invariant of the engine state during one invocation of the search
rooted at (g0, c0): every memo entry of the current generation is
correct, its own marks are already recorded, its explored children are
memoized, and every recorded bit is justified by a reachable state. -/
structure Inv (groups : List (Nat × Nat)) (cells : Cells) (g0 c0 : Nat)
    (s : OneLineSolver) : Prop where
  memoOK : ∀ g c, stamped s g c → (s.calc_fill g c ≠ 0 ↔ feas groups cells g c)
  doneOwn : ∀ g c, stamped s g c → ∀ i b, markAt groups cells g c i b →
      (s.result_cell i).testBit b = true
  closedA : ∀ g c, stamped s g c →
      can_place_color cells 0 (c : Int) (c : Int) = true →
      stampedOrBase cells s g (c + 1)
  closedB : ∀ g c, stamped s g c → g < groups.length → placeOK groups cells g c →
      stampedOrBase cells s (g + 1) (nextOf groups g c)
  soundRes : ∀ i b, (s.result_cell i).testBit b = true →
      ∃ g c, Reach groups cells g0 c0 g c ∧ markAt groups cells g c i b

/-- Everything one call of the fueled search guarantees. -/
structure CallOut (groups : List (Nat × Nat)) (cells : Cells) (g0 c0 : Nat)
    (s : OneLineSolver) (g c : Nat) (out : Nat × OneLineSolver) : Prop where
  ansIff : out.1 ≠ 0 ↔ feas groups cells g c
  inv : Inv groups cells g0 c0 out.2
  cnt : out.2.cache_cnt = s.cache_cnt
  stampMono : ∀ x y, stamped s x y → stamped out.2 x y
  resMono : ∀ i b, (s.result_cell i).testBit b = true →
      (out.2.result_cell i).testBit b = true
  selfDone : stampedOrBase cells out.2 g c
  cacheWrites : ∀ x y, out.2.cache x y = s.cache x y ∨ out.2.cache x y = s.cache_cnt

/-- Engine-state invariant across invocations: no memo stamp exceeds the
invocation counter. -/
def StampLe (s : OneLineSolver) : Prop := ∀ x y, s.cache x y ≤ s.cache_cnt

/-- Decomposition of a line assignment into its maximal runs of equal
nonzero colors, as (length, color) pairs in order.  Background cells
(color 0) separate runs and are not listed. -/
def runsOf : List Nat → List (Nat × Nat)
  | [] => []
  | x :: xs =>
    if x = 0 then runsOf xs
    else
      match xs with
      | [] => [(1, x)]
      | y :: _ =>
        if y = x then
          match runsOf xs with
          | (l, col) :: rest => (l + 1, col) :: rest
          | [] => [(1, x)]
        else (1, x) :: runsOf xs

/-- A complete assignment of colors to the whole line, as a list: it has
one color per cell, its maximal nonzero runs are exactly the groups, and
every assigned color was possible in the input line. -/
def ValidLine (groups : List (Nat × Nat)) (cells : Cells) (la : List Nat) : Prop :=
  la.length = cells.length ∧ runsOf la = groups ∧
    ∀ i, i < cells.length → (cells.getD i 0).testBit (la.getD i 0) = true

def runCalls (n : Nat) (prior : List (List (Nat × Nat) × Cells)) : OneLineSolver :=
  prior.foldl (fun s p => (s.update_state p.1 p.2).2.2) (OneLineSolver.init n)

/-! Basic characterizations of the primitive operations. -/
theorem mem_intRange {l r i : Int} : i ∈ intRange l r ↔ l ≤ i ∧ i < r := by
  unfold intRange
  constructor
  · intro h
    obtain ⟨k, hk, rfl⟩ := List.mem_map.mp h
    rw [List.mem_range, Int.lt_toNat] at hk
    omega
  · rintro ⟨h1, h2⟩
    refine List.mem_map.mpr ⟨(i - l).toNat, List.mem_range.mpr ?_, ?_⟩
    · rw [Int.lt_toNat]
      omega
    · omega

theorem and_shift_ne_iff (m b : Nat) : (m &&& (1 <<< b) ≠ 0) ↔ m.testBit b = true := by
  rw [Nat.shiftLeft_eq, one_mul, Nat.and_two_pow]
  cases h : m.testBit b
  · simp
  · simp [(Nat.two_pow_pos b).ne']

theorem can_place_color_true_iff (cells : Cells) (clr : Nat) (l r : Int) :
    can_place_color cells clr l r = true ↔
      r < (cells.length : Int) ∧
        ∀ i : Int, l ≤ i → i ≤ r → (cells.getD i.toNat 0).testBit clr = true := by
  unfold can_place_color
  split
  · rename_i h
    simp only [Bool.false_eq_true, false_iff, not_and]
    intro hr
    omega
  · rename_i h
    push_neg at h
    simp only [List.all_eq_true, true_iff, iff_true_intro h, true_and]
    constructor
    · intro hall i h1 h2
      have := hall i (mem_intRange.mpr ⟨h1, by omega⟩)
      rw [bne_iff_ne] at this
      exact (and_shift_ne_iff _ _).mp this
    · intro hall i hi
      rw [bne_iff_ne]
      rw [mem_intRange] at hi
      exact (and_shift_ne_iff _ _).mpr (hall i hi.1 (by omega))

theorem can_place_color_false_of_ge (cells : Cells) (clr : Nat) (l r : Int)
    (h : (cells.length : Int) ≤ r) : can_place_color cells clr l r = false := by
  unfold can_place_color
  rw [if_pos h]

/-- Nat-level reading of a span check starting at cell a with len cells. -/
theorem can_place_span_iff (cells : Cells) (clr : Nat) (a len : Nat) :
    can_place_color cells clr (a : Int) ((a : Int) + (len : Int) - 1) = true ↔
      a + len ≤ cells.length ∧
        ∀ j : Nat, a ≤ j → j < a + len → (cells.getD j 0).testBit clr = true := by
  rw [can_place_color_true_iff]
  constructor
  · rintro ⟨h1, h2⟩
    refine ⟨by omega, ?_⟩
    intro j hj1 hj2
    have := h2 (j : Int) (by exact_mod_cast hj1) (by omega)
    simpa using this
  · rintro ⟨h1, h2⟩
    refine ⟨by omega, ?_⟩
    intro i hi1 hi2
    have h0 : (0 : Int) ≤ i := le_trans (by positivity) hi1
    refine h2 i.toNat (by omega) (by omega)

/-- Single-cell check: the cell exists and carries the bit. -/
theorem can_place_single_iff (cells : Cells) (clr : Nat) (c : Nat) :
    can_place_color cells clr (c : Int) (c : Int) = true ↔
      c < cells.length ∧ (cells.getD c 0).testBit clr = true := by
  have h := can_place_span_iff cells clr c 1
  have he : ((c : Int) + ((1 : Nat) : Int) - 1) = (c : Int) := by push_cast; ring
  rw [he] at h
  rw [h]
  constructor
  · rintro ⟨h1, h2⟩
    exact ⟨by omega, h2 c le_rfl (by omega)⟩
  · rintro ⟨h1, h2⟩
    refine ⟨by omega, ?_⟩
    intro j hj1 hj2
    have : j = c := by omega
    subst this
    exact h2

theorem set_place_color_testBit (res : Nat → Nat) (clr : Nat) (l r : Int) (i b : Nat) :
    ((set_place_color res clr l r) i).testBit b = true ↔
      (res i).testBit b = true ∨ (l ≤ (i : Int) ∧ (i : Int) ≤ r ∧ b = clr) := by
  unfold set_place_color
  split
  · rename_i h
    rw [Nat.testBit_or, Nat.shiftLeft_eq, one_mul, Bool.or_eq_true, Nat.testBit_two_pow]
    simp only [decide_eq_true_eq]
    constructor
    · rintro (h1 | h1)
      · exact Or.inl h1
      · exact Or.inr ⟨h.1, h.2, h1.symm⟩
    · rintro (h1 | h1)
      · exact Or.inl h1
      · exact Or.inr h1.2.2.symm
  · rename_i h
    constructor
    · exact Or.inl
    · rintro (h1 | h1)
      · exact h1
      · exact absurd ⟨h1.1, h1.2.1⟩ h

theorem set_place_color_mono (res : Nat → Nat) (clr : Nat) (l r : Int) (i b : Nat)
    (h : (res i).testBit b = true) :
    ((set_place_color res clr l r) i).testBit b = true :=
  (set_place_color_testBit res clr l r i b).mpr (Or.inl h)

theorem svalid_c_le {groups : List (Nat × Nat)} {cells : Cells} {g c : Nat}
    {a : Nat → Nat} (h : SValid groups cells g c a) : c ≤ cells.length := by
  induction h with
  | base _ => exact le_rfl
  | white g c a hc _ _ _ _ => omega
  | groupSep g c a _ hc _ _ _ _ _ _ _ => omega
  | groupLast g c a _ hc _ _ _ _ _ => omega

theorem svalid_congr {groups : List (Nat × Nat)} {cells : Cells} {g c : Nat}
    {a a' : Nat → Nat} (h : SValid groups cells g c a)
    (hagree : ∀ j, c ≤ j → a j = a' j) : SValid groups cells g c a' := by
  induction h generalizing a' with
  | base _ => exact SValid.base a'
  | white g c a hc hbit ha _ ih =>
    exact SValid.white g c a' hc hbit ((hagree c le_rfl).symm.trans ha)
      (ih (fun j hj => hagree j (by omega)))
  | groupSep g c a hg hc hsep hspan hsc hsbit hsa _ ih =>
    refine SValid.groupSep g c a' hg hc hsep ?_ hsc hsbit
      (((hagree _ (by omega)).symm).trans hsa) (ih (fun j hj => hagree j (by omega)))
    intro j hj1 hj2
    exact ⟨((hagree j hj1).symm).trans (hspan j hj1 hj2).1, (hspan j hj1 hj2).2⟩
  | groupLast g c a hg hc hsep hfit hspan _ ih =>
    refine SValid.groupLast g c a' hg hc hsep hfit ?_
      (ih (fun j hj => hagree j (by omega)))
    intro j hj1 hj2
    exact ⟨((hagree j hj1).symm).trans (hspan j hj1 hj2).1, (hspan j hj1 hj2).2⟩

theorem svalid_bits {groups : List (Nat × Nat)} {cells : Cells} {g c : Nat}
    {a : Nat → Nat} (h : SValid groups cells g c a) :
    ∀ j, c ≤ j → j < cells.length → (cells.getD j 0).testBit (a j) = true := by
  induction h with
  | base _ => intro j h1 h2; omega
  | white g c a hc hbit ha _ ih =>
    intro j h1 h2
    rcases eq_or_lt_of_le h1 with rfl | hl
    · rw [ha]; exact hbit
    · exact ih j (by omega) h2
  | groupSep g c a hg hc hsep hspan hsc hsbit hsa _ ih =>
    intro j h1 h2
    by_cases hj : j < c + glen groups g
    · rw [(hspan j h1 hj).1]; exact (hspan j h1 hj).2
    · by_cases hj2 : j = c + glen groups g
      · subst hj2; rw [hsa]; exact hsbit
      · exact ih j (by omega) h2
  | groupLast g c a hg hc hsep hfit hspan _ ih =>
    intro j h1 h2
    by_cases hj : j < c + glen groups g
    · rw [(hspan j h1 hj).1]; exact (hspan j h1 hj).2
    · exact ih j (by omega) h2

theorem feas_base_iff (groups : List (Nat × Nat)) (cells : Cells) (g : Nat) :
    feas groups cells g cells.length ↔ g = groups.length := by
  constructor
  · rintro ⟨a, h⟩
    cases h with
    | base _ => rfl
    | white _ _ _ hc _ _ _ => omega
    | groupSep _ _ _ _ hc _ _ _ _ _ _ => omega
    | groupLast _ _ _ _ hc _ _ _ _ => omega
  · rintro rfl
    exact ⟨fun _ => 0, SValid.base _⟩

/-- Introduction of a white step, with the assignment overwritten at c. -/
theorem svalid_white_intro {groups : List (Nat × Nat)} {cells : Cells} {g c : Nat}
    {a : Nat → Nat} (hpl : can_place_color cells 0 (c : Int) (c : Int) = true)
    (hrec : SValid groups cells g (c + 1) a) :
    SValid groups cells g c (fun j => if j = c then 0 else a j) := by
  obtain ⟨hc, hbit⟩ := (can_place_single_iff cells 0 c).mp hpl
  refine SValid.white g c _ hc hbit (by simp) ?_
  exact svalid_congr hrec (fun j hj => by simp [show j ≠ c by omega])

theorem overwriteG_high {groups : List (Nat × Nat)} {g c : Nat} {a : Nat → Nat}
    {j : Nat} (hj : nextOf groups g c ≤ j) : overwriteG groups g c a j = a j := by
  unfold overwriteG nextOf at *
  by_cases hs : sepQ groups g
  · rw [if_pos hs] at hj
    rw [if_neg (by omega), if_neg (by push_neg; intro h; omega)]
  · rw [if_neg hs] at hj
    rw [if_neg (by omega), if_neg (fun hh => hs hh.2)]

/-- Introduction of a group step from the branch-B guard, with the
assignment overwritten on the span and the separator. -/
theorem svalid_group_intro {groups : List (Nat × Nat)} {cells : Cells} {g c : Nat}
    {a : Nat → Nat} (hg : g < groups.length) (hc : c ≠ cells.length)
    (hpl : placeOK groups cells g c)
    (hrec : SValid groups cells (g + 1) (nextOf groups g c) a) :
    SValid groups cells g c (overwriteG groups g c a) := by
  obtain ⟨hspan, hsep⟩ := hpl
  obtain ⟨hfit, hbits⟩ := (can_place_span_iff cells (gcol groups g) c (glen groups g)).mp hspan
  have hcN : c < cells.length := by omega
  have hrec' : SValid groups cells (g + 1) (nextOf groups g c) (overwriteG groups g c a) :=
    svalid_congr hrec (fun j hj => (overwriteG_high hj).symm)
  by_cases hs : sepQ groups g
  · obtain ⟨hsc, hsbit⟩ := (can_place_single_iff cells 0 (c + glen groups g)).mp (hsep hs)
    refine SValid.groupSep g c _ hg hcN hs ?_ hsc hsbit ?_ ?_
    · intro j hj1 hj2
      exact ⟨by unfold overwriteG; rw [if_pos ⟨hj1, hj2⟩], hbits j hj1 hj2⟩
    · unfold overwriteG
      rw [if_neg (by omega), if_pos ⟨rfl, hs⟩]
    · have : nextOf groups g c = c + glen groups g + 1 := by unfold nextOf; rw [if_pos hs]
      rwa [this] at hrec'
  · refine SValid.groupLast g c _ hg hcN hs hfit ?_ ?_
    · intro j hj1 hj2
      exact ⟨by unfold overwriteG; rw [if_pos ⟨hj1, hj2⟩], hbits j hj1 hj2⟩
    · have : nextOf groups g c = c + glen groups g := by
        unfold nextOf; rw [if_neg hs]; omega
      rwa [this] at hrec'

/-- One-step characterization of feasibility at a non-terminal cell,
mirroring the two branches of the search. -/
theorem feas_step_iff {groups : List (Nat × Nat)} {cells : Cells} {g c : Nat}
    (hc : c ≠ cells.length) :
    feas groups cells g c ↔
      (can_place_color cells 0 (c : Int) (c : Int) = true ∧ feas groups cells g (c + 1))
      ∨ (g < groups.length ∧ placeOK groups cells g c ∧
          feas groups cells (g + 1) (nextOf groups g c)) := by
  constructor
  · rintro ⟨a, h⟩
    cases h with
    | base _ => exact absurd rfl hc
    | white _ _ _ hcN hbit ha hrec =>
      exact Or.inl ⟨(can_place_single_iff cells 0 c).mpr ⟨hcN, hbit⟩, a, hrec⟩
    | groupSep _ _ _ hg hcN hsep hspan hsc hsbit hsa hrec =>
      refine Or.inr ⟨hg, ⟨?_, fun _ => ?_⟩, ?_⟩
      · exact (can_place_span_iff cells (gcol groups g) c (glen groups g)).mpr
          ⟨by omega, fun j h1 h2 => (hspan j h1 h2).2⟩
      · exact (can_place_single_iff cells 0 (c + glen groups g)).mpr ⟨hsc, hsbit⟩
      · have : nextOf groups g c = c + glen groups g + 1 := by
          unfold nextOf; rw [if_pos hsep]
        rw [this]
        exact ⟨a, hrec⟩
    | groupLast _ _ _ hg hcN hsep hfit hspan hrec =>
      refine Or.inr ⟨hg, ⟨?_, fun hs => absurd hs hsep⟩, ?_⟩
      · exact (can_place_span_iff cells (gcol groups g) c (glen groups g)).mpr
          ⟨hfit, fun j h1 h2 => (hspan j h1 h2).2⟩
      · have : nextOf groups g c = c + glen groups g := by
          unfold nextOf; rw [if_neg hsep]; omega
        rw [this]
        exact ⟨a, hrec⟩
  · rintro (⟨hpl, a, hrec⟩ | ⟨hg, hpl, a, hrec⟩)
    · exact ⟨_, svalid_white_intro hpl hrec⟩
    · exact ⟨_, svalid_group_intro hg hc hpl hrec⟩

theorem minSpanFrom_end {groups : List (Nat × Nat)} {g : Nat}
    (hg : ¬ g < groups.length) : minSpanFrom groups g = 0 := by
  unfold minSpanFrom
  rw [List.drop_eq_nil_of_le (by omega)]
  rfl

theorem minSpanFrom_succ {groups : List (Nat × Nat)} {g : Nat}
    (hg : g < groups.length) :
    minSpanFrom groups g =
      glen groups g + (if sepQ groups g then 1 else 0) + minSpanFrom groups (g + 1) := by
  unfold minSpanFrom
  rw [List.drop_eq_getElem_cons hg]
  by_cases hg1 : g + 1 < groups.length
  · rw [List.drop_eq_getElem_cons hg1]
    show groups[g].1 + _ + _ = _
    have h1 : glen groups g = groups[g].1 := by
      unfold glen; rw [List.getD_eq_getElem groups (0, 0) hg]
    have h2 : gcol groups g = groups[g].2 := by
      unfold gcol; rw [List.getD_eq_getElem groups (0, 0) hg]
    have h3 : gcol groups (g + 1) = groups[g + 1].2 := by
      unfold gcol; rw [List.getD_eq_getElem groups (0, 0) hg1]
    have h4 : sepQ groups g ↔ groups[g + 1].2 = groups[g].2 := by
      unfold sepQ
      rw [h2, h3]
      exact ⟨fun h => h.2, fun h => ⟨hg1, h⟩⟩
    rw [h1, ← List.drop_eq_getElem_cons hg1]
    by_cases hs : sepQ groups g
    · rw [if_pos (h4.mp hs), if_pos hs]
    · rw [if_neg (fun hh => hs (h4.mpr hh)), if_neg hs]
  · have hnil : groups.drop (g + 1) = [] := List.drop_eq_nil_of_le (by omega)
    rw [hnil]
    show groups[g].1 = _
    have h1 : glen groups g = groups[g].1 := by
      unfold glen; rw [List.getD_eq_getElem groups (0, 0) hg]
    have hs : ¬ sepQ groups g := fun hh => hg1 hh.1
    rw [if_neg hs, h1]
    show _ = _ + 0 + minSpanList []
    rfl

theorem svalid_minSpan {groups : List (Nat × Nat)} {cells : Cells} {g c : Nat}
    {a : Nat → Nat} (h : SValid groups cells g c a) :
    minSpanFrom groups g + c ≤ cells.length := by
  induction h with
  | base _ =>
    rw [minSpanFrom_end (by omega)]
    omega
  | white g c a hc hbit ha _ ih => omega
  | groupSep g c a hg hc hsep hspan hsc hsbit hsa _ ih =>
    rw [minSpanFrom_succ hg, if_pos hsep]
    omega
  | groupLast g c a hg hc hsep hfit hspan _ ih =>
    rw [minSpanFrom_succ hg, if_neg hsep]
    omega

theorem le_nextOf (groups : List (Nat × Nat)) (g c : Nat) : c ≤ nextOf groups g c := by
  unfold nextOf
  split <;> omega

/-- Every recorded pair points to a real cell whose bit was available. -/
theorem markAt_bits {groups : List (Nat × Nat)} {cells : Cells} {g c i b : Nat}
    (h : markAt groups cells g c i b) :
    i < cells.length ∧ (cells.getD i 0).testBit b = true := by
  rcases h with ⟨rfl, rfl, hpl, _⟩ | ⟨hg, ⟨hspan, hsep⟩, _, hsp | hse⟩
  · exact (can_place_single_iff cells 0 _).mp hpl
  · obtain ⟨h1, h2⟩ := (can_place_span_iff cells (gcol groups g) c (glen groups g)).mp hspan
    exact ⟨by omega, hsp.2.2 ▸ h2 i hsp.1 hsp.2.1⟩
  · obtain ⟨h1, h2⟩ := (can_place_single_iff cells 0 (c + glen groups g)).mp (hsep hse.1)
    exact ⟨hse.2.1 ▸ h1, by rw [hse.2.1, hse.2.2]; exact h2⟩

/-- Any valid suffix from a reachable state extends to a valid suffix
from the root, agreeing with it from c onward. -/
theorem reach_extend {groups : List (Nat × Nat)} {cells : Cells} {g0 c0 g c : Nat}
    (h : Reach groups cells g0 c0 g c) :
    ∀ a, SValid groups cells g c a →
      ∃ a', SValid groups cells g0 c0 a' ∧ ∀ j, c ≤ j → a' j = a j := by
  induction h with
  | root => exact fun a ha => ⟨a, ha, fun j _ => rfl⟩
  | stepA g c hre hc hpl ih =>
    intro a ha
    obtain ⟨a', h3, h4⟩ := ih _ (svalid_white_intro hpl ha)
    refine ⟨a', h3, fun j hj => ?_⟩
    rw [h4 j (by omega)]
    simp [show j ≠ c by omega]
  | stepB g c hre hc hg hpl ih =>
    intro a ha
    obtain ⟨a', h3, h4⟩ := ih _ (svalid_group_intro hg hc hpl ha)
    refine ⟨a', h3, fun j hj => ?_⟩
    rw [h4 j (le_trans (le_nextOf groups g c) hj)]
    exact overwriteG_high hj

/-- A recorded pair at a reachable state is realized by a full valid
completion from the root. -/
theorem markAt_full {groups : List (Nat × Nat)} {cells : Cells} {g0 c0 g c i b : Nat}
    (hre : Reach groups cells g0 c0 g c) (hm : markAt groups cells g c i b) :
    ∃ a, SValid groups cells g0 c0 a ∧ a i = b := by
  rcases hm with ⟨rfl, rfl, hpl, a, hrec⟩ | ⟨hg, hpl, ⟨a, hrec⟩, hmk⟩
  · obtain ⟨a', h3, h4⟩ := reach_extend hre _ (svalid_white_intro hpl hrec)
    refine ⟨a', h3, ?_⟩
    rw [h4 _ le_rfl]
    simp
  · have hfit := ((can_place_span_iff cells (gcol groups g) c (glen groups g)).mp hpl.1).1
    have hc : c ≠ cells.length := by
      rcases hmk with ⟨hi1, hi2, _⟩ | ⟨hs, hieq, hb⟩
      · omega
      · have := ((can_place_single_iff cells 0 (c + glen groups g)).mp (hpl.2 hs)).1
        omega
    obtain ⟨a', h3, h4⟩ := reach_extend hre _ (svalid_group_intro hg hc hpl hrec)
    rcases hmk with ⟨hi1, hi2, rfl⟩ | ⟨hs, rfl, rfl⟩
    · refine ⟨a', h3, ?_⟩
      rw [h4 i (by omega)]
      unfold overwriteG
      rw [if_pos ⟨hi1, hi2⟩]
    · refine ⟨a', h3, ?_⟩
      rw [h4 (c + glen groups g) (by omega)]
      unfold overwriteG
      rw [if_neg (by omega), if_pos ⟨rfl, hs⟩]

theorem measure_stepA {groups : List (Nat × Nat)} {cells : Cells} {g c : Nat}
    (hc : c < cells.length) :
    searchMeasure groups cells g (c + 1) < searchMeasure groups cells g c := by
  unfold searchMeasure
  generalize (groups.length + 1 - g) * (cells.length + 2) = K
  omega

theorem measure_stepB {groups : List (Nat × Nat)} {cells : Cells} {g c : Nat}
    (hg : g < groups.length) (x : Nat) :
    searchMeasure groups cells (g + 1) x < searchMeasure groups cells g c := by
  unfold searchMeasure
  have h1 : groups.length + 1 - g = (groups.length - g) + 1 := by omega
  have h2 : groups.length + 1 - (g + 1) = groups.length - g := by omega
  rw [h1, h2, Nat.succ_mul]
  generalize (groups.length - g) * (cells.length + 2) = K
  omega

theorem measure_lt_fuel (groups : List (Nat × Nat)) (cells : Cells) (g c : Nat) :
    searchMeasure groups cells g c < fuelFor groups cells := by
  unfold searchMeasure fuelFor
  have h1 : (groups.length + 1 - g) * (cells.length + 2) ≤
      (groups.length + 1) * (cells.length + 2) :=
    Nat.mul_le_mul_right _ (by omega)
  generalize hK : (groups.length + 1 - g) * (cells.length + 2) = K at h1
  generalize (groups.length + 1) * (cells.length + 2) = K2 at h1
  omega

theorem stamped_set_result {s : OneLineSolver} {r : Nat → Nat} {g c : Nat} :
    stamped { s with result_cell := r } g c ↔ stamped s g c := Iff.rfl

/-- Adding justified marks to the accumulator preserves the invariant. -/
theorem inv_add_mark {groups : List (Nat × Nat)} {cells : Cells} {g0 c0 : Nat}
    {s : OneLineSolver} (hinv : Inv groups cells g0 c0 s) (clr : Nat) (l r : Int)
    (hjust : ∀ i b, (l ≤ (i : Nat) ∧ (i : Nat) ≤ r ∧ b = clr) →
      ∃ gm cm, Reach groups cells g0 c0 gm cm ∧ markAt groups cells gm cm i b) :
    Inv groups cells g0 c0
      { s with result_cell := set_place_color s.result_cell clr l r } := by
  refine ⟨hinv.memoOK, ?_, hinv.closedA, hinv.closedB, ?_⟩
  · intro g c hst i b hm
    exact set_place_color_mono _ _ _ _ _ _ (hinv.doneOwn g c hst i b hm)
  · intro i b hbit
    rcases (set_place_color_testBit _ _ _ _ _ _).mp hbit with h | h
    · exact hinv.soundRes i b h
    · exact hjust i b h

/-- Writing the memo entry for the fully processed state (g, c) turns the
accumulated facts into the full contract of the call. -/
theorem finalize_spec {groups : List (Nat × Nat)} {cells : Cells} {g0 c0 : Nat}
    {s ans2 : OneLineSolver} {g c : Nat} {ansv : Nat}
    (hans : ansv ≠ 0 ↔ feas groups cells g c)
    (hinv : Inv groups cells g0 c0 ans2)
    (hcnt : ans2.cache_cnt = s.cache_cnt)
    (hsm : ∀ x y, stamped s x y → stamped ans2 x y)
    (hrm : ∀ i b, (s.result_cell i).testBit b = true →
      (ans2.result_cell i).testBit b = true)
    (hcw : ∀ x y, ans2.cache x y = s.cache x y ∨ ans2.cache x y = s.cache_cnt)
    (hdone : ∀ i b, markAt groups cells g c i b →
      (ans2.result_cell i).testBit b = true)
    (hclA : can_place_color cells 0 (c : Int) (c : Int) = true →
      stampedOrBase cells ans2 g (c + 1))
    (hclB : g < groups.length → placeOK groups cells g c →
      stampedOrBase cells ans2 (g + 1) (nextOf groups g c)) :
    CallOut groups cells g0 c0 s g c
      (ansv, { ans2 with
        calc_fill := fun x y => if x = g ∧ y = c then ansv else ans2.calc_fill x y,
        cache := fun x y => if x = g ∧ y = c then ans2.cache_cnt else ans2.cache x y }) := by
  set out2 : OneLineSolver :=
    { ans2 with
      calc_fill := fun x y => if x = g ∧ y = c then ansv else ans2.calc_fill x y,
      cache := fun x y => if x = g ∧ y = c then ans2.cache_cnt else ans2.cache x y }
    with hout2
  have hmono : ∀ u v, stamped ans2 u v → stamped out2 u v := by
    intro u v h
    unfold stamped at *
    show (if u = g ∧ v = c then ans2.cache_cnt else ans2.cache u v) = ans2.cache_cnt
    split
    · rfl
    · exact h
  have hself : stamped out2 g c := by
    unfold stamped
    show (if g = g ∧ c = c then ans2.cache_cnt else ans2.cache g c) = ans2.cache_cnt
    rw [if_pos ⟨rfl, rfl⟩]
  have hback : ∀ u v, stamped out2 u v → (u = g ∧ v = c) ∨ stamped ans2 u v := by
    intro u v h
    unfold stamped at h
    by_cases huv : u = g ∧ v = c
    · exact Or.inl huv
    · refine Or.inr ?_
      unfold stamped
      have : out2.cache u v = ans2.cache u v := by
        show (if u = g ∧ v = c then ans2.cache_cnt else ans2.cache u v) = _
        rw [if_neg huv]
      rw [this] at h
      exact h
  have hsob : ∀ u v, stampedOrBase cells ans2 u v → stampedOrBase cells out2 u v := by
    rintro u v (h | h)
    · exact Or.inl (hmono u v h)
    · exact Or.inr h
  refine ⟨hans, ⟨?_, ?_, ?_, ?_, ?_⟩, hcnt, ?_, hrm, Or.inl hself, ?_⟩
  · intro u v hst
    rcases hback u v hst with ⟨rfl, rfl⟩ | h
    · show (if u = u ∧ v = v then ansv else ans2.calc_fill u v) ≠ 0 ↔ _
      rw [if_pos ⟨rfl, rfl⟩]
      exact hans
    · by_cases huv : u = g ∧ v = c
      · obtain ⟨rfl, rfl⟩ := huv
        show (if u = u ∧ v = v then ansv else ans2.calc_fill u v) ≠ 0 ↔ _
        rw [if_pos ⟨rfl, rfl⟩]
        exact hans
      · show (if u = g ∧ v = c then ansv else ans2.calc_fill u v) ≠ 0 ↔ _
        rw [if_neg huv]
        exact hinv.memoOK u v h
  · intro u v hst i b hm
    rcases hback u v hst with ⟨rfl, rfl⟩ | h
    · exact hdone i b hm
    · exact hinv.doneOwn u v h i b hm
  · intro u v hst hpl
    rcases hback u v hst with ⟨rfl, rfl⟩ | h
    · exact hsob _ _ (hclA hpl)
    · exact hsob _ _ (hinv.closedA u v h hpl)
  · intro u v hst hg hpl
    rcases hback u v hst with ⟨rfl, rfl⟩ | h
    · exact hsob _ _ (hclB hg hpl)
    · exact hsob _ _ (hinv.closedB u v h hg hpl)
  · exact hinv.soundRes
  · intro x y h
    exact hmono x y (hsm x y h)
  · intro x y
    by_cases hxy : x = g ∧ y = c
    · refine Or.inr ?_
      show (if x = g ∧ y = c then ans2.cache_cnt else ans2.cache x y) = _
      rw [if_pos hxy, hcnt]
    · have : out2.cache x y = ans2.cache x y := by
        show (if x = g ∧ y = c then ans2.cache_cnt else ans2.cache x y) = _
        rw [if_neg hxy]
      rw [this]
      exact hcw x y

theorem sepOK_raw (groups : List (Nat × Nat)) (cells : Cells) (g c : Nat) :
    sepOK groups cells g c ↔
      can_place_color cells 0 ((c : Int) + ((groups.getD g (0, 0)).1 : Int) - 1 + 1)
        ((c : Int) + ((groups.getD g (0, 0)).1 : Int) - 1 + 1) = true := by
  unfold sepOK glen
  have h : ((c + (groups.getD g (0, 0)).1 : Nat) : Int) =
      (c : Int) + ((groups.getD g (0, 0)).1 : Int) - 1 + 1 := by push_cast; ring
  rw [h]

theorem toNat_next_sep {groups : List (Nat × Nat)} {g : Nat} (c : Nat)
    (hs : sepQ groups g) :
    ((c : Int) + ((groups.getD g (0, 0)).1 : Int) - 1 + 1 + 1).toNat = nextOf groups g c := by
  unfold nextOf glen
  rw [if_pos hs]
  omega

theorem toNat_next_nosep {groups : List (Nat × Nat)} {g : Nat} (c : Nat)
    (hs : ¬ sepQ groups g) :
    ((c : Int) + ((groups.getD g (0, 0)).1 : Int) - 1 + 1).toNat = nextOf groups g c := by
  unfold nextOf glen
  rw [if_neg hs]
  omega

/-- Full contract of the fueled search, proved by induction on the fuel. -/
theorem can_fill_fuel_spec (groups : List (Nat × Nat)) (cells : Cells) (g0 c0 : Nat) :
    ∀ (fuel : Nat) (g c : Nat) (s : OneLineSolver),
      searchMeasure groups cells g c < fuel →
      Inv groups cells g0 c0 s → Reach groups cells g0 c0 g c →
      CallOut groups cells g0 c0 s g c (can_fill_fuel groups cells fuel s g c) := by
  intro fuel
  induction fuel with
  | zero => intro g c s hm _ _; omega
  | succ fuel ih =>
    intro g c s hfuel hinv hre
    by_cases hcN : c = cells.length
    · subst hcN
      rw [show can_fill_fuel groups cells (fuel + 1) s g cells.length
          = (if g = groups.length then 1 else 0, s) from by
        simp only [can_fill_fuel]; rw [if_pos trivial]]
      refine ⟨?_, hinv, rfl, fun x y h => h, fun i b h => h, Or.inr rfl, fun x y => Or.inl rfl⟩
      rw [feas_base_iff]
      by_cases hgL : g = groups.length
      · simp [hgL]
      · simp [hgL]
    · by_cases hhit : s.cache g c = s.cache_cnt
      · rw [show can_fill_fuel groups cells (fuel + 1) s g c = (s.calc_fill g c, s) from by
          simp only [can_fill_fuel]; rw [if_neg hcN, if_pos hhit]]
        exact ⟨hinv.memoOK g c hhit, hinv, rfl, fun x y h => h, fun i b h => h,
          Or.inl hhit, fun x y => Or.inl rfl⟩
      · simp only [can_fill_fuel]
        rw [if_neg hcN, if_neg hhit]
        have hA0 : ∃ (a0v : Nat) (s0 : OneLineSolver),
            ((if can_place_color cells 0 (c : Int) (c : Int) = true then
                if (can_fill_fuel groups cells fuel s g (c + 1)).1 ≠ 0 then
                  (1,
                    { cache := (can_fill_fuel groups cells fuel s g (c + 1)).2.cache,
                      calc_fill := (can_fill_fuel groups cells fuel s g (c + 1)).2.calc_fill,
                      cache_cnt := (can_fill_fuel groups cells fuel s g (c + 1)).2.cache_cnt,
                      result_cell := set_place_color
                        (can_fill_fuel groups cells fuel s g (c + 1)).2.result_cell 0
                        (c : Int) (c : Int) })
                else (0, (can_fill_fuel groups cells fuel s g (c + 1)).2)
              else (0, s)) : Nat × OneLineSolver) = (a0v, s0)
            ∧ (a0v ≠ 0 ↔ (can_place_color cells 0 (c : Int) (c : Int) = true ∧
                feas groups cells g (c + 1)))
            ∧ Inv groups cells g0 c0 s0
            ∧ s0.cache_cnt = s.cache_cnt
            ∧ (∀ x y, stamped s x y → stamped s0 x y)
            ∧ (∀ i b, (s.result_cell i).testBit b = true →
                (s0.result_cell i).testBit b = true)
            ∧ (∀ x y, s0.cache x y = s.cache x y ∨ s0.cache x y = s.cache_cnt)
            ∧ (can_place_color cells 0 (c : Int) (c : Int) = true →
                feas groups cells g (c + 1) → (s0.result_cell c).testBit 0 = true)
            ∧ (can_place_color cells 0 (c : Int) (c : Int) = true →
                stampedOrBase cells s0 g (c + 1)) := by
          by_cases hA : can_place_color cells 0 (c : Int) (c : Int) = true
          · have hclt : c < cells.length := ((can_place_single_iff cells 0 c).mp hA).1
            have hmA : searchMeasure groups cells g (c + 1) < fuel := by
              have := @measure_stepA groups cells g c hclt
              omega
            have ihA := ih g (c + 1) s hmA hinv (Reach.stepA g c hre hcN hA)
            by_cases hA1 : (can_fill_fuel groups cells fuel s g (c + 1)).1 ≠ 0
            · have hfeasA : feas groups cells g (c + 1) := ihA.ansIff.mp hA1
              refine ⟨1,
                { (can_fill_fuel groups cells fuel s g (c + 1)).2 with
                  result_cell := set_place_color
                    (can_fill_fuel groups cells fuel s g (c + 1)).2.result_cell 0
                    (c : Int) (c : Int) },
                by rw [if_pos hA, if_pos hA1], ?_, ?_, ihA.cnt,
                fun x y h => ihA.stampMono x y h,
                fun i b h => set_place_color_mono _ _ _ _ _ _ (ihA.resMono i b h),
                fun x y => ihA.cacheWrites x y, ?_, fun _ => ihA.selfDone⟩
              · exact iff_of_true one_ne_zero ⟨hA, hfeasA⟩
              · refine inv_add_mark ihA.inv 0 (c : Int) (c : Int) ?_
                rintro i b ⟨h1, h2, rfl⟩
                have hi : i = c := by omega
                exact ⟨g, c, hre, Or.inl ⟨rfl, hi, hA, hfeasA⟩⟩
              · intro _ _
                exact (set_place_color_testBit _ _ _ _ _ _).mpr (Or.inr ⟨le_rfl, le_rfl, rfl⟩)
            · have hA1' : (can_fill_fuel groups cells fuel s g (c + 1)).1 = 0 := not_not.mp hA1
              refine ⟨0, (can_fill_fuel groups cells fuel s g (c + 1)).2,
                by rw [if_pos hA, if_neg hA1], ?_, ihA.inv, ihA.cnt,
                fun x y h => ihA.stampMono x y h, fun i b h => ihA.resMono i b h,
                fun x y => ihA.cacheWrites x y, ?_, fun _ => ihA.selfDone⟩
              · constructor
                · intro h; exact absurd rfl h
                · rintro ⟨_, hf⟩
                  exact absurd hA1' (ihA.ansIff.mpr hf)
              · intro _ hf
                exact absurd hA1' (ihA.ansIff.mpr hf)
          · refine ⟨0, s, by rw [if_neg hA], ?_, hinv, rfl, fun x y h => h, fun i b h => h,
              fun x y => Or.inl rfl, fun hA' _ => absurd hA' hA, fun hA' => absurd hA' hA⟩
            constructor
            · intro h; exact absurd rfl h
            · rintro ⟨hA', _⟩; exact absurd hA' hA
        obtain ⟨a0v, s0, hA0eq, h0iff, h0inv, h0cnt, h0sm, h0rm, h0cw, h0done, h0clA⟩ := hA0
        rw [hA0eq]
        simp only []
        by_cases hg : g < groups.length
        · rw [if_pos hg]
          by_cases hsp : can_place_color cells (groups.getD g (0, 0)).2 (c : Int)
              ((c : Int) + ((groups.getD g (0, 0)).1 : Int) - 1) = true
          · by_cases hsq : g + 1 < groups.length ∧
                (groups.getD (g + 1) (0, 0)).2 = (groups.getD g (0, 0)).2
            · have hQ : can_place_color cells (groups.getD g (0, 0)).2 (c : Int)
                  ((c : Int) + ((groups.getD g (0, 0)).1 : Int) - 1) = true ∧
                  (g + 1 < groups.length ∧
                    (groups.getD (g + 1) (0, 0)).2 = (groups.getD g (0, 0)).2) := ⟨hsp, hsq⟩
              simp only [if_pos hQ]
              have hsepQ : sepQ groups g := hsq
              by_cases hsc : can_place_color cells 0
                  ((c : Int) + ((groups.getD g (0, 0)).1 : Int) - 1 + 1)
                  ((c : Int) + ((groups.getD g (0, 0)).1 : Int) - 1 + 1) = true
              · rw [if_pos hsc]
                have hplace : placeOK groups cells g c :=
                  ⟨hsp, fun _ => (sepOK_raw groups cells g c).mpr hsc⟩
                set n := ((c : Int) + ((groups.getD g (0, 0)).1 : Int) - 1 + 1 + 1).toNat
                  with hndef
                have hnn : n = nextOf groups g c := toNat_next_sep c hsepQ
                have hmB : searchMeasure groups cells (g + 1) n < fuel := by
                  have := @measure_stepB groups cells g c hg n
                  omega
                have hreB : Reach groups cells g0 c0 (g + 1) n := by
                  rw [hnn]; exact Reach.stepB g c hre hcN hg hplace
                have ihB := ih (g + 1) n s0 hmB h0inv hreB
                have hsob2 : ∀ u v, stampedOrBase cells s0 u v →
                    stampedOrBase cells (can_fill_fuel groups cells fuel s0 (g + 1) n).2 u v :=
                  fun u v h => h.elim (fun h' => Or.inl (ihB.stampMono u v h')) Or.inr
                by_cases hB1 : (can_fill_fuel groups cells fuel s0 (g + 1) n).1 ≠ 0
                · rw [if_pos hB1]
                  have hfeasB : feas groups cells (g + 1) (nextOf groups g c) := by
                    rw [← hnn]; exact ihB.ansIff.mp hB1
                  refine finalize_spec
                    (iff_of_true one_ne_zero
                      ((feas_step_iff hcN).mpr (Or.inr ⟨hg, hplace, hfeasB⟩)))
                    ?_ (ihB.cnt.trans h0cnt)
                    (fun x y h => ihB.stampMono x y (h0sm x y h))
                    (fun i b h => set_place_color_mono _ _ _ _ _ _
                      (set_place_color_mono _ _ _ _ _ _ (ihB.resMono i b (h0rm i b h))))
                    ?_ ?_ ?_ ?_
                  · refine inv_add_mark (inv_add_mark ihB.inv
                      (groups.getD g (0, 0)).2 (c : Int)
                      ((c : Int) + ((groups.getD g (0, 0)).1 : Int) - 1) ?_) 0
                      ((c : Int) + ((groups.getD g (0, 0)).1 : Int) - 1 + 1)
                      ((c : Int) + ((groups.getD g (0, 0)).1 : Int) - 1 + 1) ?_
                    · rintro i b ⟨h1, h2, rfl⟩
                      refine ⟨g, c, hre, Or.inr ⟨hg, hplace, hfeasB, Or.inl ⟨?_, ?_, rfl⟩⟩⟩
                      · exact_mod_cast h1
                      · unfold glen; omega
                    · rintro i b ⟨h1, h2, rfl⟩
                      refine ⟨g, c, hre, Or.inr ⟨hg, hplace, hfeasB, Or.inr ⟨hsepQ, ?_, rfl⟩⟩⟩
                      unfold glen; omega
                  · intro x y
                    rcases ihB.cacheWrites x y with h | h
                    · rcases h0cw x y with h2 | h2
                      · exact Or.inl (h.trans h2)
                      · exact Or.inr (h.trans h2)
                    · exact Or.inr (h.trans h0cnt)
                  · rintro i b (⟨rfl, rfl, hA', hfA⟩ | ⟨hg', hpl', hfeas', hmk⟩)
                    · exact set_place_color_mono _ _ _ _ _ _ (set_place_color_mono _ _ _ _ _ _
                        (ihB.resMono _ 0 (h0done hA' hfA)))
                    · rcases hmk with ⟨hi1, hi2, rfl⟩ | ⟨hs', rfl, rfl⟩
                      · refine set_place_color_mono _ _ _ _ _ _ ?_
                        refine (set_place_color_testBit _ _ _ _ _ _).mpr (Or.inr ⟨?_, ?_, ?_⟩)
                        · exact_mod_cast hi1
                        · unfold glen at hi2; omega
                        · rfl
                      · refine (set_place_color_testBit _ _ _ _ _ _).mpr (Or.inr ⟨?_, ?_, rfl⟩)
                        · unfold glen; omega
                        · unfold glen; omega
                  · intro hA'
                    exact hsob2 _ _ (h0clA hA')
                  · intro _ _
                    rw [← hnn]
                    exact ihB.selfDone
                · have hB0 : (can_fill_fuel groups cells fuel s0 (g + 1) n).1 = 0 :=
                    not_not.mp hB1
                  rw [if_neg hB1]
                  simp only []
                  have hnofeas : ¬ feas groups cells (g + 1) (nextOf groups g c) := by
                    intro hf
                    refine absurd hB0 (ihB.ansIff.mpr ?_)
                    rw [hnn]; exact hf
                  refine finalize_spec
                    (h0iff.trans ?_) ihB.inv (ihB.cnt.trans h0cnt)
                    (fun x y h => ihB.stampMono x y (h0sm x y h))
                    (fun i b h => ihB.resMono i b (h0rm i b h))
                    ?_ ?_ (fun hA' => hsob2 _ _ (h0clA hA')) ?_
                  · rw [feas_step_iff hcN]
                    constructor
                    · exact Or.inl
                    · rintro (h | h)
                      · exact h
                      · exact absurd h.2.2 hnofeas
                  · intro x y
                    rcases ihB.cacheWrites x y with h | h
                    · rcases h0cw x y with h2 | h2
                      · exact Or.inl (h.trans h2)
                      · exact Or.inr (h.trans h2)
                    · exact Or.inr (h.trans h0cnt)
                  · rintro i b (⟨rfl, rfl, hA', hfA⟩ | ⟨hg', hpl', hfeas', hmk⟩)
                    · exact ihB.resMono _ 0 (h0done hA' hfA)
                    · exact absurd hfeas' hnofeas
                  · intro _ _
                    rw [← hnn]
                    exact ihB.selfDone
              · rw [if_neg hsc]
                simp only []
                have hnoplace : ¬ placeOK groups cells g c := by
                  rintro ⟨_, hso⟩
                  exact absurd ((sepOK_raw groups cells g c).mp (hso hsepQ)) hsc
                refine finalize_spec (h0iff.trans ?_) h0inv h0cnt h0sm h0rm h0cw ?_ h0clA ?_
                · rw [feas_step_iff hcN]
                  constructor
                  · exact Or.inl
                  · rintro (h | h)
                    · exact h
                    · exact absurd h.2.1 hnoplace
                · rintro i b (⟨rfl, rfl, hA', hfA⟩ | ⟨hg', hpl', _, _⟩)
                  · exact h0done hA' hfA
                  · exact absurd hpl' hnoplace
                · intro _ hpl'
                  exact absurd hpl' hnoplace
            · have hnQ : ¬ (can_place_color cells (groups.getD g (0, 0)).2 (c : Int)
                  ((c : Int) + ((groups.getD g (0, 0)).1 : Int) - 1) = true ∧
                  (g + 1 < groups.length ∧
                    (groups.getD (g + 1) (0, 0)).2 = (groups.getD g (0, 0)).2)) :=
                fun h => hsq h.2
              simp only [if_neg hnQ]
              have hnsepQ : ¬ sepQ groups g := hsq
              rw [if_pos hsp]
              have hplace : placeOK groups cells g c := ⟨hsp, fun hs => absurd hs hnsepQ⟩
              set n := ((c : Int) + ((groups.getD g (0, 0)).1 : Int) - 1 + 1).toNat
                with hndef
              have hnn : n = nextOf groups g c := toNat_next_nosep c hnsepQ
              have hmB : searchMeasure groups cells (g + 1) n < fuel := by
                have := @measure_stepB groups cells g c hg n
                omega
              have hreB : Reach groups cells g0 c0 (g + 1) n := by
                rw [hnn]; exact Reach.stepB g c hre hcN hg hplace
              have ihB := ih (g + 1) n s0 hmB h0inv hreB
              have hsob2 : ∀ u v, stampedOrBase cells s0 u v →
                  stampedOrBase cells (can_fill_fuel groups cells fuel s0 (g + 1) n).2 u v :=
                fun u v h => h.elim (fun h' => Or.inl (ihB.stampMono u v h')) Or.inr
              by_cases hB1 : (can_fill_fuel groups cells fuel s0 (g + 1) n).1 ≠ 0
              · rw [if_pos hB1, if_neg Bool.false_ne_true]
                have hfeasB : feas groups cells (g + 1) (nextOf groups g c) := by
                  rw [← hnn]; exact ihB.ansIff.mp hB1
                refine finalize_spec
                  (iff_of_true one_ne_zero
                    ((feas_step_iff hcN).mpr (Or.inr ⟨hg, hplace, hfeasB⟩)))
                  ?_ (ihB.cnt.trans h0cnt)
                  (fun x y h => ihB.stampMono x y (h0sm x y h))
                  (fun i b h => set_place_color_mono _ _ _ _ _ _
                    (ihB.resMono i b (h0rm i b h)))
                  ?_ ?_ ?_ ?_
                · refine inv_add_mark ihB.inv (groups.getD g (0, 0)).2 (c : Int)
                    ((c : Int) + ((groups.getD g (0, 0)).1 : Int) - 1) ?_
                  rintro i b ⟨h1, h2, rfl⟩
                  refine ⟨g, c, hre, Or.inr ⟨hg, hplace, hfeasB, Or.inl ⟨?_, ?_, rfl⟩⟩⟩
                  · exact_mod_cast h1
                  · unfold glen; omega
                · intro x y
                  rcases ihB.cacheWrites x y with h | h
                  · rcases h0cw x y with h2 | h2
                    · exact Or.inl (h.trans h2)
                    · exact Or.inr (h.trans h2)
                  · exact Or.inr (h.trans h0cnt)
                · rintro i b (⟨rfl, rfl, hA', hfA⟩ | ⟨hg', hpl', hfeas', hmk⟩)
                  · exact set_place_color_mono _ _ _ _ _ _
                      (ihB.resMono _ 0 (h0done hA' hfA))
                  · rcases hmk with ⟨hi1, hi2, rfl⟩ | ⟨hs', _, _⟩
                    · refine (set_place_color_testBit _ _ _ _ _ _).mpr (Or.inr ⟨?_, ?_, rfl⟩)
                      · exact_mod_cast hi1
                      · unfold glen at hi2; omega
                    · exact absurd hs' hnsepQ
                · intro hA'
                  exact hsob2 _ _ (h0clA hA')
                · intro _ _
                  rw [← hnn]
                  exact ihB.selfDone
              · have hB0 : (can_fill_fuel groups cells fuel s0 (g + 1) n).1 = 0 :=
                  not_not.mp hB1
                rw [if_neg hB1]
                simp only []
                have hnofeas : ¬ feas groups cells (g + 1) (nextOf groups g c) := by
                  intro hf
                  refine absurd hB0 (ihB.ansIff.mpr ?_)
                  rw [hnn]; exact hf
                refine finalize_spec
                  (h0iff.trans ?_) ihB.inv (ihB.cnt.trans h0cnt)
                  (fun x y h => ihB.stampMono x y (h0sm x y h))
                  (fun i b h => ihB.resMono i b (h0rm i b h))
                  ?_ ?_ (fun hA' => hsob2 _ _ (h0clA hA')) ?_
                · rw [feas_step_iff hcN]
                  constructor
                  · exact Or.inl
                  · rintro (h | h)
                    · exact h
                    · exact absurd h.2.2 hnofeas
                · intro x y
                  rcases ihB.cacheWrites x y with h | h
                  · rcases h0cw x y with h2 | h2
                    · exact Or.inl (h.trans h2)
                    · exact Or.inr (h.trans h2)
                  · exact Or.inr (h.trans h0cnt)
                · rintro i b (⟨rfl, rfl, hA', hfA⟩ | ⟨hg', hpl', hfeas', hmk⟩)
                  · exact ihB.resMono _ 0 (h0done hA' hfA)
                  · exact absurd hfeas' hnofeas
                · intro _ _
                  rw [← hnn]
                  exact ihB.selfDone
          · have hnQ : ¬ (can_place_color cells (groups.getD g (0, 0)).2 (c : Int)
                ((c : Int) + ((groups.getD g (0, 0)).1 : Int) - 1) = true ∧
                (g + 1 < groups.length ∧
                  (groups.getD (g + 1) (0, 0)).2 = (groups.getD g (0, 0)).2)) :=
              fun h => hsp h.1
            simp only [if_neg hnQ]
            rw [if_neg hsp]
            simp only []
            have hnoplace : ¬ placeOK groups cells g c := fun h => absurd h.1 hsp
            refine finalize_spec (h0iff.trans ?_) h0inv h0cnt h0sm h0rm h0cw ?_ h0clA ?_
            · rw [feas_step_iff hcN]
              constructor
              · exact Or.inl
              · rintro (h | h)
                · exact h
                · exact absurd h.2.1 hnoplace
            · rintro i b (⟨rfl, rfl, hA', hfA⟩ | ⟨hg', hpl', _, _⟩)
              · exact h0done hA' hfA
              · exact absurd hpl' hnoplace
            · intro _ hpl'
              exact absurd hpl' hnoplace
        · rw [if_neg hg]
          simp only []
          refine finalize_spec (h0iff.trans ?_) h0inv h0cnt h0sm h0rm h0cw ?_ h0clA ?_
          · rw [feas_step_iff hcN]
            constructor
            · exact Or.inl
            · rintro (h | h)
              · exact h
              · exact absurd h.1 hg
          · rintro i b (⟨rfl, rfl, hA', hfA⟩ | ⟨hg', _, _, _⟩)
            · exact h0done hA' hfA
            · exact absurd hg' hg
          · intro hg' _
            exact absurd hg' hg

theorem init_stampLe (n : Nat) : StampLe (OneLineSolver.init n) :=
  fun _ _ => Nat.le_refl 0

theorem map_range_getD (f : Nat → Nat) (n i : Nat) (hi : i < n) :
    (((List.range n).map f).getD i 0) = f i := by
  rw [List.getD_eq_getElem _ _ (by simpa using hi)]
  simp

/-- Once the top-level search has finished, every cell of every valid
completion whose path state is memoized carries its bit in the
accumulator. -/
theorem complete_marks {groups : List (Nat × Nat)} {cells : Cells}
    {s' : OneLineSolver} (hinv : Inv groups cells 0 0 s') :
    ∀ {g c : Nat} {a : Nat → Nat}, SValid groups cells g c a →
      stampedOrBase cells s' g c →
      ∀ i, c ≤ i → i < cells.length → (s'.result_cell i).testBit (a i) = true := by
  intro g c a h
  induction h with
  | base a => intro _ i h1 h2; omega
  | white g c a hc hbit ha hrec ih =>
    intro hsb i h1 h2
    have hst : stamped s' g c := hsb.resolve_right (by omega)
    have hplA : can_place_color cells 0 (c : Int) (c : Int) = true :=
      (can_place_single_iff _ _ _).mpr ⟨hc, hbit⟩
    have hchild := hinv.closedA g c hst hplA
    rcases eq_or_lt_of_le h1 with heq | hl
    · have hbitres := hinv.doneOwn g c hst c 0 (Or.inl ⟨rfl, rfl, hplA, ⟨a, hrec⟩⟩)
      have hai : a i = 0 := by rw [← heq]; exact ha
      rw [hai, ← heq]
      exact hbitres
    · exact ih hchild i (by omega) h2
  | groupSep g c a hg hc hsep hspan hsc hsbit hsa hrec ih =>
    intro hsb i h1 h2
    have hst : stamped s' g c := hsb.resolve_right (by omega)
    have hplace : placeOK groups cells g c :=
      ⟨(can_place_span_iff _ _ _ _).mpr
        ⟨by omega, fun j hj1 hj2 => (hspan j hj1 hj2).2⟩,
       fun _ => (can_place_single_iff _ _ _).mpr ⟨hsc, hsbit⟩⟩
    have hnext : nextOf groups g c = c + glen groups g + 1 := by
      unfold nextOf; rw [if_pos hsep]
    have hfeasnext : feas groups cells (g + 1) (nextOf groups g c) := by
      rw [hnext]; exact ⟨a, hrec⟩
    have hchild := hinv.closedB g c hst hg hplace
    by_cases hji : i < c + glen groups g
    · have hmk := hinv.doneOwn g c hst i (gcol groups g)
        (Or.inr ⟨hg, hplace, hfeasnext, Or.inl ⟨h1, hji, rfl⟩⟩)
      rw [(hspan i h1 hji).1]
      exact hmk
    · by_cases hji2 : i = c + glen groups g
      · have hmk := hinv.doneOwn g c hst i 0
          (Or.inr ⟨hg, hplace, hfeasnext, Or.inr ⟨hsep, hji2, rfl⟩⟩)
        have hai : a i = 0 := by rw [hji2]; exact hsa
        rw [hai]
        exact hmk
      · rw [hnext] at hchild
        exact ih hchild i (by omega) h2
  | groupLast g c a hg hc hsep hfit hspan hrec ih =>
    intro hsb i h1 h2
    have hst : stamped s' g c := hsb.resolve_right (by omega)
    have hplace : placeOK groups cells g c :=
      ⟨(can_place_span_iff _ _ _ _).mpr
        ⟨hfit, fun j hj1 hj2 => (hspan j hj1 hj2).2⟩,
       fun hs => absurd hs hsep⟩
    have hnext : nextOf groups g c = c + glen groups g := by
      unfold nextOf; rw [if_neg hsep]; omega
    have hfeasnext : feas groups cells (g + 1) (nextOf groups g c) := by
      rw [hnext]; exact ⟨a, hrec⟩
    have hchild := hinv.closedB g c hst hg hplace
    by_cases hji : i < c + glen groups g
    · have hmk := hinv.doneOwn g c hst i (gcol groups g)
        (Or.inr ⟨hg, hplace, hfeasnext, Or.inl ⟨h1, hji, rfl⟩⟩)
      rw [(hspan i h1 hji).1]
      exact hmk
    · rw [hnext] at hchild
      exact ih hchild i (by omega) h2

/-- Full functional specification of update_state on any engine state
that satisfies the stamp invariant. -/
theorem update_state_spec (groups : List (Nat × Nat)) (cells : Cells)
    (s : OneLineSolver) (hs : StampLe s) :
    ((s.update_state groups cells).1 = true ↔ feas groups cells 0 0)
    ∧ ((s.update_state groups cells).1 = false →
        (s.update_state groups cells).2.1 = cells)
    ∧ ((s.update_state groups cells).1 = true → ∀ i b, i < cells.length →
        (((s.update_state groups cells).2.1.getD i 0).testBit b = true ↔
          ∃ a, SValid groups cells 0 0 a ∧ a i = b))
    ∧ StampLe (s.update_state groups cells).2.2
    ∧ (s.update_state groups cells).2.2.cache_cnt = s.cache_cnt + 1
    ∧ (s.update_state groups cells).2.1.length = cells.length := by
  have hfresh : Inv groups cells 0 0
      { s with cache_cnt := s.cache_cnt + 1, result_cell := fun _ => 0 } := by
    refine ⟨?_, ?_, ?_, ?_, ?_⟩
    · intro g c hst
      exact absurd hst (by have := hs g c; unfold stamped; simp; omega)
    · intro g c hst
      exact absurd hst (by have := hs g c; unfold stamped; simp; omega)
    · intro g c hst
      exact absurd hst (by have := hs g c; unfold stamped; simp; omega)
    · intro g c hst _
      exact absurd hst (by have := hs g c; unfold stamped; simp; omega)
    · intro i b hbit
      rw [Nat.zero_testBit] at hbit
      exact absurd hbit (by simp)
  have hspec := can_fill_fuel_spec groups cells 0 0 (fuelFor groups cells) 0 0
    { s with cache_cnt := s.cache_cnt + 1, result_cell := fun _ => 0 }
    (measure_lt_fuel groups cells 0 0) hfresh Reach.root
  have hsle : StampLe (can_fill_fuel groups cells (fuelFor groups cells)
      { s with cache_cnt := s.cache_cnt + 1, result_cell := fun _ => 0 } 0 0).2 := by
    intro x y
    have hcnt := hspec.cnt
    rcases hspec.cacheWrites x y with h | h
    · rw [h, hcnt]
      have := hs x y
      simp only []
      omega
    · rw [h, hcnt]
  have hupd : s.update_state groups cells =
      (if (can_fill_fuel groups cells (fuelFor groups cells)
          { s with cache_cnt := s.cache_cnt + 1, result_cell := fun _ => 0 } 0 0).1 = 0 then
        ((false : Bool), cells, (can_fill_fuel groups cells (fuelFor groups cells)
          { s with cache_cnt := s.cache_cnt + 1, result_cell := fun _ => 0 } 0 0).2)
      else ((true : Bool), (List.range cells.length).map
          (can_fill_fuel groups cells (fuelFor groups cells)
            { s with cache_cnt := s.cache_cnt + 1, result_cell := fun _ => 0 } 0 0).2.result_cell,
        (can_fill_fuel groups cells (fuelFor groups cells)
          { s with cache_cnt := s.cache_cnt + 1, result_cell := fun _ => 0 } 0 0).2)) := rfl
  rw [hupd]
  by_cases hr : (can_fill_fuel groups cells (fuelFor groups cells)
      { s with cache_cnt := s.cache_cnt + 1, result_cell := fun _ => 0 } 0 0).1 = 0
  · rw [if_pos hr]
    refine ⟨?_, fun _ => rfl, ?_, hsle, hspec.cnt, rfl⟩
    · simp only [Bool.false_eq_true, false_iff]
      intro hf
      exact absurd hr (hspec.ansIff.mpr hf)
    · intro h
      simp at h
  · rw [if_neg hr]
    refine ⟨iff_of_true rfl (hspec.ansIff.mp hr), ?_, ?_, hsle, hspec.cnt, by simp⟩
    · intro h
      simp at h
    · intro _ i b hi
      rw [map_range_getD _ _ _ hi]
      constructor
      · intro hbit
        obtain ⟨gm, cm, hre, hm⟩ := hspec.inv.soundRes i b hbit
        exact markAt_full hre hm
      · rintro ⟨a, ha, rfl⟩
        exact complete_marks hspec.inv ha hspec.selfDone i (Nat.zero_le i) hi

/-- A valid completion only reads the cell bits it actually uses, so it
survives any narrowing that keeps those bits. -/
theorem svalid_mono {groups : List (Nat × Nat)} {cells cells2 : Cells}
    {g c : Nat} {a : Nat → Nat} (hlen : cells2.length = cells.length)
    (h : SValid groups cells g c a)
    (hbits : ∀ j, c ≤ j → j < cells.length → (cells2.getD j 0).testBit (a j) = true) :
    SValid groups cells2 g c a := by
  induction h with
  | base a =>
    have : cells2.length = cells.length := hlen
    rw [← this]
    exact SValid.base a
  | white g c a hc hbit ha hrec ih =>
    refine SValid.white g c a (by omega) ?_ ha (ih ?_)
    · have := hbits c le_rfl hc
      rwa [ha] at this
    · intro j h1 h2
      exact hbits j (by omega) h2
  | groupSep g c a hg hc hsep hspan hsc hsbit hsa hrec ih =>
    refine SValid.groupSep g c a hg (by omega) hsep ?_ (by omega) ?_ hsa (ih ?_)
    · intro j h1 h2
      refine ⟨(hspan j h1 h2).1, ?_⟩
      have := hbits j h1 (by omega)
      rwa [(hspan j h1 h2).1] at this
    · have := hbits (c + glen groups g) (by omega) hsc
      rwa [hsa] at this
    · intro j h1 h2
      exact hbits j (by omega) h2
  | groupLast g c a hg hc hsep hfit hspan hrec ih =>
    refine SValid.groupLast g c a hg (by omega) hsep (by omega) ?_ (ih ?_)
    · intro j h1 h2
      refine ⟨(hspan j h1 h2).1, ?_⟩
      have := hbits j h1 (by omega)
      rwa [(hspan j h1 h2).1] at this
    · intro j h1 h2
      exact hbits j (by omega) h2

/-- When the minimum span of the remaining groups exactly fills the
remaining cells, the completion is forced: any two valid completions
agree on every remaining cell. -/
theorem svalid_unique {groups : List (Nat × Nat)} {cells : Cells}
    {g c : Nat} {a : Nat → Nat} (h : SValid groups cells g c a) :
    ∀ a', SValid groups cells g c a' →
      minSpanFrom groups g + c = cells.length →
      ∀ j, c ≤ j → j < cells.length → a j = a' j := by
  induction h with
  | base a => intro a' _ _ j h1 h2; omega
  | white g c a hc hbit ha hrec ih =>
    intro a' h' hmin j h1 h2
    have := svalid_minSpan hrec
    omega
  | groupSep g c a hg hc hsep hspan hsc hsbit hsa hrec ih =>
    intro a' h' hmin j h1 h2
    have hmin' : minSpanFrom groups (g + 1) + (c + glen groups g + 1) = cells.length := by
      rw [minSpanFrom_succ hg, if_pos hsep] at hmin
      omega
    cases h' with
    | base _ => omega
    | white _ _ _ hc' hbit' ha' hrec' =>
      have := svalid_minSpan hrec'
      omega
    | groupSep _ _ _ hg' hc' hsep' hspan' hsc' hsbit' hsa' hrec' =>
      by_cases hj1 : j < c + glen groups g
      · rw [(hspan j h1 hj1).1, (hspan' j h1 hj1).1]
      · by_cases hj2 : j = c + glen groups g
        · rw [hj2, hsa, hsa']
        · exact ih a' hrec' hmin' j (by omega) h2
    | groupLast _ _ _ hg' hc' hsep' hfit' hspan' hrec' =>
      exact absurd hsep hsep'
  | groupLast g c a hg hc hsep hfit hspan hrec ih =>
    intro a' h' hmin j h1 h2
    have hmin' : minSpanFrom groups (g + 1) + (c + glen groups g) = cells.length := by
      rw [minSpanFrom_succ hg, if_neg hsep] at hmin
      omega
    cases h' with
    | base _ => omega
    | white _ _ _ hc' hbit' ha' hrec' =>
      have := svalid_minSpan hrec'
      omega
    | groupSep _ _ _ hg' hc' hsep' hspan' hsc' hsbit' hsa' hrec' =>
      exact absurd hsep' hsep
    | groupLast _ _ _ hg' hc' hsep' hfit' hspan' hrec' =>
      by_cases hj1 : j < c + glen groups g
      · rw [(hspan j h1 hj1).1, (hspan' j h1 hj1).1]
      · exact ih a' hrec' hmin' j (by omega) h2

theorem runsOf_zero (xs : List Nat) : runsOf (0 :: xs) = runsOf xs := by
  simp [runsOf]

theorem runsOf_single {x : Nat} (hx : x ≠ 0) : runsOf [x] = [(1, x)] := by
  simp [runsOf, hx]

theorem runsOf_cons_ne {x y : Nat} (t : List Nat) (hx : x ≠ 0) (hxy : y ≠ x) :
    runsOf (x :: y :: t) = (1, x) :: runsOf (y :: t) := by
  rw [show runsOf (x :: y :: t)
      = if x = 0 then runsOf (y :: t)
        else if y = x then
          (match runsOf (y :: t) with
            | (l, col) :: rest => (l + 1, col) :: rest
            | [] => [(1, x)])
        else (1, x) :: runsOf (y :: t) from rfl]
  rw [if_neg hx, if_neg hxy]

theorem runsOf_cons_eq {x : Nat} (t : List Nat) (hx : x ≠ 0) {l col : Nat}
    {rest : List (Nat × Nat)} (h : runsOf (x :: t) = (l, col) :: rest) :
    runsOf (x :: x :: t) = (l + 1, col) :: rest := by
  rw [show runsOf (x :: x :: t)
      = if x = 0 then runsOf (x :: t)
        else if x = x then
          (match runsOf (x :: t) with
            | (l, col) :: rest => (l + 1, col) :: rest
            | [] => [(1, x)])
        else (1, x) :: runsOf (x :: t) from rfl]
  rw [if_neg hx, if_pos rfl, h]

theorem runsOf_replicate_append : ∀ (len : Nat), 1 ≤ len → ∀ (col : Nat), col ≠ 0 →
    ∀ (rest : List Nat), rest.headD 0 ≠ col →
    runsOf (List.replicate len col ++ rest) = (len, col) :: runsOf rest := by
  intro len
  induction len with
  | zero => intro h; omega
  | succ m ih =>
    intro _ col hcol rest hrest
    cases m with
    | zero =>
      rw [show List.replicate 1 col ++ rest = col :: rest by simp]
      cases rest with
      | nil => exact runsOf_single hcol
      | cons y t =>
        have hy : y ≠ col := by simpa using hrest
        exact runsOf_cons_ne t hcol hy
    | succ m' =>
      have hrec := ih (by omega) col hcol rest hrest
      have hshape2 : List.replicate (m' + 1) col ++ rest =
          col :: (List.replicate m' col ++ rest) := by
        rw [List.replicate_succ]
        rfl
      have hshape : List.replicate (m' + 2) col ++ rest =
          col :: col :: (List.replicate m' col ++ rest) := by
        rw [List.replicate_succ, List.replicate_succ]
        rfl
      rw [hshape]
      rw [hshape2] at hrec
      exact runsOf_cons_eq _ hcol hrec

theorem runsOf_lead {x : Nat} (hx : x ≠ 0) : ∀ (xs : List Nat),
    ∃ k, 1 ≤ k ∧ k ≤ xs.length + 1 ∧ (∀ j, j < k → (x :: xs).getD j 0 = x) ∧
      ((x :: xs).drop k).headD 0 ≠ x ∧
      runsOf (x :: xs) = (k, x) :: runsOf ((x :: xs).drop k) := by
  intro xs
  induction xs with
  | nil =>
    refine ⟨1, le_rfl, by simp, ?_, by simpa using (Ne.symm hx), by rw [runsOf_single hx]; rfl⟩
    intro j hj
    have : j = 0 := by omega
    rw [this]
    rfl
  | cons y t ih =>
    by_cases hy : y = x
    · subst hy
      obtain ⟨k, hk1, hk2, hk3, hk4, hk5⟩ := ih
      refine ⟨k + 1, by omega, by simp; omega, ?_, hk4, runsOf_cons_eq _ hx hk5⟩
      intro j hj
      cases j with
      | zero => rfl
      | succ j' => exact hk3 j' (by omega)
    · refine ⟨1, le_rfl, by simp, ?_, by simpa using hy, ?_⟩
      · intro j hj
        have : j = 0 := by omega
        rw [this]
        rfl
      · rw [runsOf_cons_ne t hx hy]
        rfl

theorem sfx_cons {a : Nat → Nat} {N c : Nat} (h : c < N) :
    (List.range (N - c)).map (fun k => a (c + k)) =
      a c :: (List.range (N - (c + 1))).map (fun k => a (c + 1 + k)) := by
  have h1 : N - c = (N - (c + 1)) + 1 := by omega
  have hfun : ((fun k => a (c + k)) ∘ Nat.succ) = (fun k : Nat => a (c + 1 + k)) :=
    funext fun k => congrArg a (by omega)
  rw [h1, List.range_succ_eq_map]
  simp only [List.map_cons, Nat.add_zero, List.map_map]
  rw [hfun]

theorem sfx_drop {a : Nat → Nat} {N : Nat} : ∀ (k c : Nat), c + k ≤ N →
    ((List.range (N - c)).map (fun t => a (c + t))).drop k =
      (List.range (N - (c + k))).map (fun t => a (c + k + t)) := by
  intro k
  induction k with
  | zero =>
    intro c h
    simp
  | succ m ih =>
    intro c h
    rw [sfx_cons (show c < N by omega), List.drop_succ_cons, ih (c + 1) (by omega)]
    have e1 : N - (c + 1 + m) = N - (c + (m + 1)) := by omega
    have hfun : (fun t : Nat => a (c + 1 + m + t)) = (fun t : Nat => a (c + (m + 1) + t)) :=
      funext fun t => congrArg a (by omega)
    rw [e1, hfun]

theorem sfx_replicate {a : Nat → Nat} {N col : Nat} : ∀ (len c : Nat), c + len ≤ N →
    (∀ j, c ≤ j → j < c + len → a j = col) →
    (List.range (N - c)).map (fun k => a (c + k)) =
      List.replicate len col ++ (List.range (N - (c + len))).map (fun k => a (c + len + k)) := by
  intro len
  induction len with
  | zero =>
    intro c h _
    simp
  | succ m ih =>
    intro c h hsp
    rw [sfx_cons (show c < N by omega), hsp c le_rfl (by omega), List.replicate_succ,
      List.cons_append]
    congr 1
    rw [ih (c + 1) (by omega) (fun j h1 h2 => hsp j (by omega) (by omega))]
    have e1 : N - (c + 1 + m) = N - (c + (m + 1)) := by omega
    have hfun : (fun k : Nat => a (c + 1 + m + k)) = (fun k : Nat => a (c + (m + 1) + k)) :=
      funext fun k => congrArg a (by omega)
    rw [e1, hfun]

theorem glen_gcol_pos {groups : List (Nat × Nat)} {g : Nat}
    (hG : ∀ p ∈ groups, 1 ≤ p.1 ∧ 1 ≤ p.2) (hg : g < groups.length) :
    1 ≤ glen groups g ∧ 1 ≤ gcol groups g := by
  have hmem : groups[g] ∈ groups := List.getElem_mem hg
  have h := hG groups[g] hmem
  unfold glen gcol
  rw [List.getD_eq_getElem groups (0, 0) hg]
  exact h

theorem getD_eq_pair {groups : List (Nat × Nat)} {g : Nat} (hg : g < groups.length) :
    (glen groups g, gcol groups g) = groups[g] := by
  unfold glen gcol
  rw [List.getD_eq_getElem groups (0, 0) hg]

/-- The first cell of a valid suffix is background or starts the current
group (whose length is positive under well-formed groups). -/
theorem svalid_head {groups : List (Nat × Nat)} {cells : Cells} {g c : Nat}
    {a : Nat → Nat} (hG : ∀ p ∈ groups, 1 ≤ p.1 ∧ 1 ≤ p.2)
    (h : SValid groups cells g c a) (hc : c < cells.length) :
    a c = 0 ∨ (g < groups.length ∧ a c = gcol groups g) := by
  cases h with
  | base _ => omega
  | white _ _ _ _ _ ha _ => exact Or.inl ha
  | groupSep _ _ _ hg _ _ hspan _ _ _ _ =>
    exact Or.inr ⟨hg, (hspan c le_rfl (by have := (glen_gcol_pos hG hg).1; omega)).1⟩
  | groupLast _ _ _ hg _ _ _ hspan _ =>
    exact Or.inr ⟨hg, (hspan c le_rfl (by have := (glen_gcol_pos hG hg).1; omega)).1⟩

/-- Soundness half of the runs correspondence: every valid suffix
decomposes into exactly the remaining groups. -/
theorem svalid_to_runs {groups : List (Nat × Nat)} {cells : Cells}
    (hG : ∀ p ∈ groups, 1 ≤ p.1 ∧ 1 ≤ p.2) {g c : Nat} {a : Nat → Nat}
    (h : SValid groups cells g c a) :
    runsOf ((List.range (cells.length - c)).map (fun k => a (c + k))) =
      groups.drop g := by
  induction h with
  | base _ =>
    rw [Nat.sub_self]
    rw [List.drop_length]
    rfl
  | white g c a hc hbit ha hrec ih =>
    rw [sfx_cons hc, ha, runsOf_zero]
    exact ih
  | groupSep g c a hg hc hsep hspan hsc hsbit hsa hrec ih =>
    obtain ⟨hgl, hgc⟩ := glen_gcol_pos hG hg
    have hhd : ((List.range (cells.length - (c + glen groups g))).map
        (fun k => a (c + glen groups g + k))).headD 0 ≠ gcol groups g := by
      rw [sfx_cons hsc, hsa]
      show (0 : Nat) ≠ gcol groups g
      omega
    rw [sfx_replicate (glen groups g) c (by omega) (fun j h1 h2 => (hspan j h1 h2).1)]
    rw [runsOf_replicate_append _ hgl _ (by omega) _ hhd]
    rw [List.drop_eq_getElem_cons hg, ← getD_eq_pair hg]
    congr 1
    rw [sfx_cons hsc, hsa, runsOf_zero]
    exact ih
  | groupLast g c a hg hc hsep hfit hspan hrec ih =>
    obtain ⟨hgl, hgc⟩ := glen_gcol_pos hG hg
    have hhd : ((List.range (cells.length - (c + glen groups g))).map
        (fun k => a (c + glen groups g + k))).headD 0 ≠ gcol groups g := by
      by_cases hend : c + glen groups g = cells.length
      · rw [hend, Nat.sub_self]
        show (0 : Nat) ≠ gcol groups g
        omega
      · have hlt : c + glen groups g < cells.length := by omega
        rw [sfx_cons hlt]
        show a (c + glen groups g) ≠ gcol groups g
        rcases svalid_head hG hrec hlt with h0 | ⟨hg1, hcol⟩
        · omega
        · rw [hcol]
          intro hcontra
          exact hsep ⟨hg1, hcontra⟩
    rw [sfx_replicate (glen groups g) c hfit (fun j h1 h2 => (hspan j h1 h2).1)]
    rw [runsOf_replicate_append _ hgl _ (by omega) _ hhd]
    rw [List.drop_eq_getElem_cons hg, ← getD_eq_pair hg]
    congr 1

theorem list_eq_map_range (l : List Nat) :
    (List.range l.length).map (fun k => l.getD k 0) = l := by
  apply List.ext_getElem
  · simp
  · intro i h1 h2
    simp only [List.getElem_map, List.getElem_range]
    exact List.getD_eq_getElem l 0 h2

/-- Completeness half of the runs correspondence: any assignment whose
suffix decomposes into the remaining groups and respects the cell bits
is a valid completion. -/
theorem runs_to_svalid {groups : List (Nat × Nat)} {cells : Cells} :
    ∀ (cnt c g : Nat) (a : Nat → Nat), cells.length - c = cnt →
      c ≤ cells.length → g ≤ groups.length →
      runsOf ((List.range (cells.length - c)).map (fun k => a (c + k))) = groups.drop g →
      (∀ j, c ≤ j → j < cells.length → (cells.getD j 0).testBit (a j) = true) →
      SValid groups cells g c a := by
  intro cnt
  induction cnt using Nat.strong_induction_on with
  | _ cnt ih =>
    intro c g a hcnt hcle hgle hruns hbits
    by_cases hcend : c = cells.length
    · have hz : cells.length - c = 0 := by omega
      rw [hz] at hruns
      have hnil : groups.drop g = [] := by rw [← hruns]; rfl
      have hlen := congrArg List.length hnil
      rw [List.length_drop] at hlen
      simp only [List.length_nil] at hlen
      have hgL : g = groups.length := by omega
      subst hgL
      subst hcend
      exact SValid.base a
    · have hcN : c < cells.length := by omega
      rw [sfx_cons hcN] at hruns
      by_cases ha0 : a c = 0
      · rw [ha0, runsOf_zero] at hruns
        refine SValid.white g c a hcN ?_ ha0
          (ih (cells.length - (c + 1)) (by omega) (c + 1) g a rfl (by omega) hgle hruns
            (fun j h1 h2 => hbits j (by omega) h2))
        have := hbits c le_rfl hcN
        rwa [ha0] at this
      · obtain ⟨k, hk1, hk2, hk3, hk4, hk5⟩ := runsOf_lead ha0
          ((List.range (cells.length - (c + 1))).map (fun t => a (c + 1 + t)))
        have hLsfx : (a c :: (List.range (cells.length - (c + 1))).map
            (fun t => a (c + 1 + t))) =
            (List.range (cells.length - c)).map (fun t => a (c + t)) := (sfx_cons hcN).symm
        rw [hk5] at hruns
        have hlenxs : ((List.range (cells.length - (c + 1))).map
            (fun t => a (c + 1 + t))).length = cells.length - (c + 1) := by simp
        rw [hlenxs] at hk2
        have hkN : c + k ≤ cells.length := by omega
        have hgL : g < groups.length := by
          by_contra hgg
          rw [List.drop_eq_nil_of_le (show groups.length ≤ g by omega)] at hruns
          exact absurd hruns (by simp)
        rw [List.drop_eq_getElem_cons hgL] at hruns
        injection hruns with h1 h2
        have hdrop : (a c :: (List.range (cells.length - (c + 1))).map
            (fun t => a (c + 1 + t))).drop k =
            (List.range (cells.length - (c + k))).map (fun t => a (c + k + t)) := by
          rw [hLsfx]
          exact sfx_drop k c hkN
        rw [hdrop] at h2 hk4
        have hspanv : ∀ j, c ≤ j → j < c + k → a j = a c := by
          intro j hj1 hj2
          have h3 := hk3 (j - c) (by omega)
          rw [hLsfx, map_range_getD _ _ _ (by omega),
            show c + (j - c) = j by omega] at h3
          exact h3
        have hkg : k = glen groups g := by
          have h4 := getD_eq_pair hgL
          rw [← h1] at h4
          exact ((Prod.mk.injEq _ _ _ _).mp h4).1.symm
        have hcg : a c = gcol groups g := by
          have h4 := getD_eq_pair hgL
          rw [← h1] at h4
          exact ((Prod.mk.injEq _ _ _ _).mp h4).2.symm
        have hspan2 : ∀ j, c ≤ j → j < c + glen groups g →
            a j = gcol groups g ∧ (cells.getD j 0).testBit (gcol groups g) = true := by
          intro j hj1 hj2
          rw [← hkg] at hj2
          have hv : a j = gcol groups g := (hspanv j hj1 hj2).trans hcg
          refine ⟨hv, ?_⟩
          have := hbits j hj1 (by omega)
          rwa [hv] at this
        by_cases hsep : sepQ groups g
        · have hckN : c + k < cells.length := by
            by_contra hc2
            have hce : c + k = cells.length := by omega
            rw [hce, Nat.sub_self] at h2
            have hnil2 : groups.drop (g + 1) = [] := by rw [← h2]; rfl
            have hlen2 := congrArg List.length hnil2
            rw [List.length_drop] at hlen2
            simp only [List.length_nil] at hlen2
            have := hsep.1
            omega
          have hd0 : a (c + k) = 0 := by
            by_contra hd
            obtain ⟨k2, _, _, _, _, hkr2⟩ := runsOf_lead hd
              ((List.range (cells.length - (c + k + 1))).map (fun t => a (c + k + 1 + t)))
            rw [sfx_cons hckN] at h2 hk4
            simp only [List.headD_cons] at hk4
            rw [hkr2] at h2
            rw [List.drop_eq_getElem_cons hsep.1] at h2
            injection h2 with h3 _
            have h4 := getD_eq_pair hsep.1
            rw [← h3] at h4
            have h5 : a (c + k) = gcol groups (g + 1) :=
              ((Prod.mk.injEq _ _ _ _).mp h4).2.symm
            exact hk4 (by rw [h5, hsep.2, ← hcg])
          refine SValid.groupSep g c a hgL hcN hsep hspan2 (by omega) ?_ ?_ ?_
          · have := hbits (c + k) (by omega) hckN
            rw [hd0] at this
            rwa [← hkg]
          · rw [← hkg]
            exact hd0
          · rw [sfx_cons hckN, hd0, runsOf_zero] at h2
            rw [← hkg]
            exact ih (cells.length - (c + k + 1)) (by omega) (c + k + 1) (g + 1) a rfl
              (by omega) (by omega) h2 (fun j h1' h2' => hbits j (by omega) h2')
        · by_cases hend : c + k = cells.length
          · have hgl1 : g + 1 = groups.length := by
              rw [hend, Nat.sub_self] at h2
              have hnil2 : groups.drop (g + 1) = [] := by rw [← h2]; rfl
              have hlen2 := congrArg List.length hnil2
              rw [List.length_drop] at hlen2
              simp only [List.length_nil] at hlen2
              omega
            refine SValid.groupLast g c a hgL hcN hsep (by omega) hspan2 ?_
            rw [← hkg, hend, hgl1]
            exact SValid.base a
          · have hckN : c + k < cells.length := by omega
            refine SValid.groupLast g c a hgL hcN hsep (by omega) hspan2 ?_
            rw [← hkg]
            exact ih (cells.length - (c + k)) (by omega) (c + k) (g + 1) a rfl
              (by omega) (by omega) h2 (fun j h1' h2' => hbits j (by omega) h2')

theorem exists_svalid_iff_validline {groups : List (Nat × Nat)} {cells : Cells}
    (hG : ∀ p ∈ groups, 1 ≤ p.1 ∧ 1 ≤ p.2) (i b : Nat) (hi : i < cells.length) :
    (∃ a, SValid groups cells 0 0 a ∧ a i = b) ↔
      (∃ la, ValidLine groups cells la ∧ la.getD i 0 = b) := by
  constructor
  · rintro ⟨a, ha, rfl⟩
    refine ⟨(List.range cells.length).map a, ⟨by simp, ?_, ?_⟩, map_range_getD a _ i hi⟩
    · have h := svalid_to_runs hG ha
      have e : (List.range (cells.length - 0)).map (fun k => a (0 + k)) =
          (List.range cells.length).map a := by
        simp
      rw [e, List.drop_zero] at h
      exact h
    · intro j hj
      rw [map_range_getD a _ j hj]
      exact svalid_bits ha j (Nat.zero_le j) hj
  · rintro ⟨la, ⟨hlen, hruns, hbits⟩, rfl⟩
    refine ⟨fun j => la.getD j 0, ?_, rfl⟩
    refine runs_to_svalid (cells.length - 0) 0 0 _ rfl (Nat.zero_le _) (Nat.zero_le _) ?_ ?_
    · have e : (List.range (cells.length - 0)).map
          (fun k => (fun j => la.getD j 0) (0 + k)) = la := by
        simp only [Nat.sub_zero, Nat.zero_add]
        rw [← hlen]
        exact list_eq_map_range la
      rw [e, List.drop_zero]
      exact hruns
    · intro j h1 h2
      exact hbits j h2

/-- C1: for every groups sequence (with group lengths and colors at least
one) and line, if update_state returns true then, for every cell i and
color b, bit b of the updated cell i is set iff some complete assignment
of the whole line realizes the groups, respects the input possibility
sets, and assigns color b to cell i. -/
theorem claim_C1 (groups : List (Nat × Nat)) (cells : Cells) (s : OneLineSolver)
    (hs : StampLe s) (hG : ∀ p ∈ groups, 1 ≤ p.1 ∧ 1 ≤ p.2)
    (ht : (s.update_state groups cells).1 = true) (i b : Nat) (hi : i < cells.length) :
    (((s.update_state groups cells).2.1.getD i 0).testBit b = true ↔
      ∃ la, ValidLine groups cells la ∧ la.getD i 0 = b) := by
  have h := update_state_spec groups cells s hs
  rw [h.2.2.1 ht i b hi]
  exact exists_svalid_iff_validline hG i b hi

theorem claim_C1_witness :
    StampLe (OneLineSolver.init 2) ∧ (∀ p ∈ [((1 : Nat), (1 : Nat))], 1 ≤ p.1 ∧ 1 ≤ p.2) ∧
    ((OneLineSolver.init 2).update_state [(1, 1)] [3, 3]).1 = true ∧
    (0 : Nat) < ([3, 3] : Cells).length ∧
    ((((OneLineSolver.init 2).update_state [(1, 1)] [3, 3]).2.1.getD 0 0).testBit 1 = true ↔
      ∃ la, ValidLine [(1, 1)] [3, 3] la ∧ la.getD 0 0 = 1) :=
  ⟨init_stampLe 2, by decide, by decide, by decide,
    claim_C1 [(1, 1)] [3, 3] (OneLineSolver.init 2) (init_stampLe 2) (by decide)
      (by decide) 0 1 (by decide)⟩

/-- C2: update_state either returns false and returns the line exactly as
it was, or returns true and overwrites every cell with the result
accumulator; no partially updated line is ever returned. -/
theorem claim_C2 (groups : List (Nat × Nat)) (cells : Cells) (s : OneLineSolver) :
    ((s.update_state groups cells).1 = false ∧ (s.update_state groups cells).2.1 = cells)
    ∨ ((s.update_state groups cells).1 = true ∧
        (s.update_state groups cells).2.1 =
          (List.range cells.length).map (s.update_state groups cells).2.2.result_cell) := by
  have hupd : s.update_state groups cells =
      (if (can_fill_fuel groups cells (fuelFor groups cells)
          { s with cache_cnt := s.cache_cnt + 1, result_cell := fun _ => 0 } 0 0).1 = 0 then
        ((false : Bool), cells, (can_fill_fuel groups cells (fuelFor groups cells)
          { s with cache_cnt := s.cache_cnt + 1, result_cell := fun _ => 0 } 0 0).2)
      else ((true : Bool), (List.range cells.length).map
          (can_fill_fuel groups cells (fuelFor groups cells)
            { s with cache_cnt := s.cache_cnt + 1, result_cell := fun _ => 0 } 0 0).2.result_cell,
        (can_fill_fuel groups cells (fuelFor groups cells)
          { s with cache_cnt := s.cache_cnt + 1, result_cell := fun _ => 0 } 0 0).2)) := rfl
  rw [hupd]
  by_cases hr : (can_fill_fuel groups cells (fuelFor groups cells)
      { s with cache_cnt := s.cache_cnt + 1, result_cell := fun _ => 0 } 0 0).1 = 0
  · rw [if_pos hr]
    exact Or.inl ⟨rfl, rfl⟩
  · rw [if_neg hr]
    exact Or.inr ⟨rfl, rfl⟩

/-- C3: after a successful update_state, every cell's bitmask is a
bitwise subset of its bitmask before the call. -/
theorem claim_C3 (groups : List (Nat × Nat)) (cells : Cells) (s : OneLineSolver)
    (hs : StampLe s) (ht : (s.update_state groups cells).1 = true)
    (i : Nat) (hi : i < cells.length) :
    ((s.update_state groups cells).2.1.getD i 0) &&& (cells.getD i 0) =
      (s.update_state groups cells).2.1.getD i 0 := by
  have h := update_state_spec groups cells s hs
  apply Nat.eq_of_testBit_eq
  intro b
  rw [Nat.testBit_and]
  cases hx : ((s.update_state groups cells).2.1.getD i 0).testBit b
  · rfl
  · obtain ⟨a, ha, rfl⟩ := (h.2.2.1 ht i b hi).mp hx
    have h2 := svalid_bits ha i (Nat.zero_le i) hi
    rw [h2]
    rfl

theorem claim_C3_witness :
    StampLe (OneLineSolver.init 5) ∧
    ((OneLineSolver.init 5).update_state [(3, 1)] [3, 3, 3, 3, 3]).1 = true ∧
    (2 : Nat) < ([3, 3, 3, 3, 3] : Cells).length ∧
    (((OneLineSolver.init 5).update_state [(3, 1)] [3, 3, 3, 3, 3]).2.1.getD 2 0) &&&
      (([3, 3, 3, 3, 3] : Cells).getD 2 0) =
      ((OneLineSolver.init 5).update_state [(3, 1)] [3, 3, 3, 3, 3]).2.1.getD 2 0 :=
  ⟨init_stampLe 5, by decide, by decide,
    claim_C3 [(3, 1)] [3, 3, 3, 3, 3] (OneLineSolver.init 5) (init_stampLe 5)
      (by decide) 2 (by decide)⟩

/-- C4: when the total minimum span of the groups (lengths plus one
separator between adjacent same-color groups) exceeds the line length,
update_state returns false on every line of that length and leaves the
line unchanged. -/
theorem claim_C4 (groups : List (Nat × Nat)) (cells : Cells) (s : OneLineSolver)
    (hs : StampLe s) (hmin : cells.length < minSpanFrom groups 0) :
    (s.update_state groups cells).1 = false ∧
      (s.update_state groups cells).2.1 = cells := by
  have h := update_state_spec groups cells s hs
  have hnf : ¬ feas groups cells 0 0 := by
    rintro ⟨a, ha⟩
    have := svalid_minSpan ha
    omega
  have hfalse : (s.update_state groups cells).1 = false := by
    cases hb : (s.update_state groups cells).1
    · rfl
    · exact absurd (h.1.mp hb) hnf
  exact ⟨hfalse, h.2.1 hfalse⟩

theorem claim_C4_witness :
    StampLe (OneLineSolver.init 3) ∧
    (([3, 3, 3] : Cells).length < minSpanFrom [(2, 1), (2, 1)] 0) ∧
    ((OneLineSolver.init 3).update_state [(2, 1), (2, 1)] [3, 3, 3]).1 = false ∧
    ((OneLineSolver.init 3).update_state [(2, 1), (2, 1)] [3, 3, 3]).2.1 = [3, 3, 3] :=
  ⟨init_stampLe 3, by decide,
    claim_C4 [(2, 1), (2, 1)] [3, 3, 3] (OneLineSolver.init 3) (init_stampLe 3) (by decide)⟩

/-- C10: can_place_color returns false whenever the right bound reaches
the length of the cells list, and whenever it succeeds every index of
the checked interval lies inside the line. -/
theorem claim_C10 (cells : Cells) (clr : Nat) (l r : Int) :
    ((cells.length : Int) ≤ r → can_place_color cells clr l r = false)
    ∧ (can_place_color cells clr l r = true →
        ∀ i : Int, l ≤ i → i ≤ r → i < (cells.length : Int)) := by
  constructor
  · exact can_place_color_false_of_ge cells clr l r
  · intro h i h1 h2
    have := (can_place_color_true_iff cells clr l r).mp h
    omega

theorem claim_C10_witness :
    ((([3, 3] : Cells).length : Int) ≤ 5) ∧ can_place_color [3, 3] 1 0 5 = false :=
  ⟨by decide, (claim_C10 [3, 3] 1 0 5).1 (by decide)⟩

/-- C5: with the current group present, the search at a non-terminal
cell succeeds exactly when the background branch does, or the group span
fits and, when the next group shares the color, the cell right after the
span can be background and the search continues after that separator,
while otherwise the search continues right after the span. -/
theorem claim_C5 (groups : List (Nat × Nat)) (cells : Cells) (s : OneLineSolver)
    (hfr : ∀ x y, s.cache x y ≠ s.cache_cnt) (hres : ∀ i, s.result_cell i = 0)
    (g c : Nat) (hg : g < groups.length) (hc : c ≠ cells.length) :
    ((s.can_fill groups cells g c).1 ≠ 0 ↔
      ((can_place_color cells 0 (c : Int) (c : Int) = true ∧
          (s.can_fill groups cells g (c + 1)).1 ≠ 0)
        ∨ (spanOK groups cells g c ∧
            (if sepQ groups g
              then sepOK groups cells g c ∧
                (s.can_fill groups cells (g + 1) (c + glen groups g + 1)).1 ≠ 0
              else (s.can_fill groups cells (g + 1) (c + glen groups g)).1 ≠ 0)))) := by
  have hinv : ∀ g0 c0, Inv groups cells g0 c0 s := by
    intro g0 c0
    refine ⟨?_, ?_, ?_, ?_, ?_⟩
    · intro x y hst
      exact absurd hst (hfr x y)
    · intro x y hst
      exact absurd hst (hfr x y)
    · intro x y hst
      exact absurd hst (hfr x y)
    · intro x y hst _
      exact absurd hst (hfr x y)
    · intro i b hbit
      rw [hres i, Nat.zero_testBit] at hbit
      exact absurd hbit (by simp)
  have hans : ∀ g' c', ((s.can_fill groups cells g' c').1 ≠ 0 ↔ feas groups cells g' c') :=
    fun g' c' => (can_fill_fuel_spec groups cells g' c' (fuelFor groups cells) g' c' s
      (measure_lt_fuel groups cells g' c') (hinv g' c') Reach.root).ansIff
  rw [hans g c, hans g (c + 1), feas_step_iff hc]
  by_cases hsq : sepQ groups g
  · rw [if_pos hsq, hans (g + 1) (c + glen groups g + 1)]
    have hnext : nextOf groups g c = c + glen groups g + 1 := by
      unfold nextOf
      rw [if_pos hsq]
    rw [hnext]
    constructor
    · rintro (h | ⟨_, hpl, hf⟩)
      · exact Or.inl h
      · exact Or.inr ⟨hpl.1, hpl.2 hsq, hf⟩
    · rintro (h | ⟨hspan, hsep, hf⟩)
      · exact Or.inl h
      · exact Or.inr ⟨hg, ⟨hspan, fun _ => hsep⟩, hf⟩
  · rw [if_neg hsq, hans (g + 1) (c + glen groups g)]
    have hnext : nextOf groups g c = c + glen groups g := by
      unfold nextOf
      rw [if_neg hsq]
      omega
    rw [hnext]
    constructor
    · rintro (h | ⟨_, hpl, hf⟩)
      · exact Or.inl h
      · exact Or.inr ⟨hpl.1, hf⟩
    · rintro (h | ⟨hspan, hf⟩)
      · exact Or.inl h
      · exact Or.inr ⟨hg, ⟨hspan, fun hs => absurd hs hsq⟩, hf⟩

theorem claim_C5_witness :
    (∀ x y : Nat, (OneLineSolver.mk (fun _ _ => 0) (fun _ _ => 0) 1 (fun _ => 0)).cache x y ≠
      (OneLineSolver.mk (fun _ _ => 0) (fun _ _ => 0) 1 (fun _ => 0)).cache_cnt) ∧
    (0 : Nat) < [((2 : Nat), (1 : Nat)), (1, 1)].length ∧
    (0 : Nat) ≠ ([7, 7, 7, 7] : Cells).length ∧
    (((OneLineSolver.mk (fun _ _ => 0) (fun _ _ => 0) 1 (fun _ => 0)).can_fill
        [(2, 1), (1, 1)] [7, 7, 7, 7] 0 0).1 ≠ 0 ↔
      ((can_place_color [7, 7, 7, 7] 0 (0 : Int) (0 : Int) = true ∧
          ((OneLineSolver.mk (fun _ _ => 0) (fun _ _ => 0) 1 (fun _ => 0)).can_fill
            [(2, 1), (1, 1)] [7, 7, 7, 7] 0 1).1 ≠ 0)
        ∨ (spanOK [(2, 1), (1, 1)] [7, 7, 7, 7] 0 0 ∧
            (if sepQ [(2, 1), (1, 1)] 0
              then sepOK [(2, 1), (1, 1)] [7, 7, 7, 7] 0 0 ∧
                ((OneLineSolver.mk (fun _ _ => 0) (fun _ _ => 0) 1 (fun _ => 0)).can_fill
                  [(2, 1), (1, 1)] [7, 7, 7, 7] 1 (0 + glen [(2, 1), (1, 1)] 0 + 1)).1 ≠ 0
              else ((OneLineSolver.mk (fun _ _ => 0) (fun _ _ => 0) 1 (fun _ => 0)).can_fill
                  [(2, 1), (1, 1)] [7, 7, 7, 7] 1 (0 + glen [(2, 1), (1, 1)] 0)).1 ≠ 0)))) :=
  ⟨fun _ _ => Nat.zero_ne_one, by decide, by decide,
    claim_C5 [(2, 1), (1, 1)] [7, 7, 7, 7]
      (OneLineSolver.mk (fun _ _ => 0) (fun _ _ => 0) 1 (fun _ => 0))
      (fun _ _ => Nat.zero_ne_one) (fun _ => rfl) 0 0 (by decide) (by decide)⟩

/-- C6: the observable outcome of update_state, both the boolean and the
resulting line, does not depend on any sequence of prior calls made on the
same solver instance: a solver that has served arbitrary prior calls gives
the same answer as a fresh one. -/
theorem claim_C6 (n : Nat) (prior : List (List (Nat × Nat) × Cells))
    (groups : List (Nat × Nat)) (cells : Cells) :
    ((runCalls n prior).update_state groups cells).1 =
      ((OneLineSolver.init n).update_state groups cells).1
    ∧ ((runCalls n prior).update_state groups cells).2.1 =
      ((OneLineSolver.init n).update_state groups cells).2.1 := by
  have hfold : ∀ (l : List (List (Nat × Nat) × Cells)) (s0 : OneLineSolver), StampLe s0 →
      StampLe (l.foldl (fun s p => (s.update_state p.1 p.2).2.2) s0) := by
    intro l
    induction l with
    | nil => exact fun _ h => h
    | cons p t ihl =>
      intro s0 h
      exact ihl _ ((update_state_spec p.1 p.2 s0 h).2.2.2.1)
  have hst : StampLe (runCalls n prior) := hfold prior _ (init_stampLe n)
  have h1 := update_state_spec groups cells (runCalls n prior) hst
  have h2 := update_state_spec groups cells (OneLineSolver.init n) (init_stampLe n)
  by_cases hf : feas groups cells 0 0
  · have ht1 : ((runCalls n prior).update_state groups cells).1 = true := h1.1.mpr hf
    have ht2 : ((OneLineSolver.init n).update_state groups cells).1 = true := h2.1.mpr hf
    refine ⟨ht1.trans ht2.symm, ?_⟩
    apply List.ext_getElem
    · rw [h1.2.2.2.2.2, h2.2.2.2.2.2]
    · intro i hi1 hi2
      have hiN : i < cells.length := by
        rw [h1.2.2.2.2.2] at hi1
        exact hi1
      have hg1 : List.getD ((runCalls n prior).update_state groups cells).2.1 i 0
          = ((runCalls n prior).update_state groups cells).2.1[i] :=
        List.getD_eq_getElem _ 0 hi1
      have hg2 : List.getD ((OneLineSolver.init n).update_state groups cells).2.1 i 0
          = ((OneLineSolver.init n).update_state groups cells).2.1[i] :=
        List.getD_eq_getElem _ 0 hi2
      rw [← hg1, ← hg2]
      apply Nat.eq_of_testBit_eq
      intro b
      have e1 := h1.2.2.1 ht1 i b hiN
      have e2 := h2.2.2.1 ht2 i b hiN
      exact Bool.eq_iff_iff.mpr (e1.trans e2.symm)
  · have ht1 : ((runCalls n prior).update_state groups cells).1 = false := by
      cases hb : ((runCalls n prior).update_state groups cells).1
      · rfl
      · exact absurd (h1.1.mp hb) hf
    have ht2 : ((OneLineSolver.init n).update_state groups cells).1 = false := by
      cases hb : ((OneLineSolver.init n).update_state groups cells).1
      · rfl
      · exact absurd (h2.1.mp hb) hf
    exact ⟨ht1.trans ht2.symm, (h1.2.1 ht1).trans (h2.2.1 ht2).symm⟩

/-- C7: when a call to update_state succeeds, immediately repeating the
call with the same groups on the narrowed line (using the solver state
left by the first call) succeeds again and leaves the line unchanged. -/
theorem claim_C7 (groups : List (Nat × Nat)) (cells : Cells) (s : OneLineSolver)
    (hs : StampLe s) (h1t : (s.update_state groups cells).1 = true) :
    ((s.update_state groups cells).2.2.update_state groups
        (s.update_state groups cells).2.1).1 = true
    ∧ ((s.update_state groups cells).2.2.update_state groups
        (s.update_state groups cells).2.1).2.1 = (s.update_state groups cells).2.1 := by
  have h1 := update_state_spec groups cells s hs
  set cells2 := (s.update_state groups cells).2.1 with hc2
  set s2 := (s.update_state groups cells).2.2 with hs2
  have hlen2 : cells2.length = cells.length := h1.2.2.2.2.2
  have hchar1 : ∀ i b, i < cells.length →
      ((List.getD cells2 i 0).testBit b = true ↔
        ∃ a, SValid groups cells 0 0 a ∧ a i = b) :=
    fun i b hi => h1.2.2.1 h1t i b hi
  have hst2 : StampLe s2 := h1.2.2.2.1
  have h2 := update_state_spec groups cells2 s2 hst2
  have hequiv : ∀ a, SValid groups cells2 0 0 a ↔ SValid groups cells 0 0 a := by
    intro a
    constructor
    · intro ha2
      refine svalid_mono (hlen2.symm) ha2 ?_
      intro j hj0 hj
      have hj2 : j < cells2.length := hj
      have hjN : j < cells.length := by
        rw [← hlen2]
        exact hj2
      have hb2 : (List.getD cells2 j 0).testBit (a j) = true := svalid_bits ha2 j hj0 hj2
      obtain ⟨a0, ha0, ha0j⟩ := (hchar1 j (a j) hjN).mp hb2
      have hb0 := svalid_bits ha0 j (Nat.zero_le j) hjN
      rw [ha0j] at hb0
      exact hb0
    · intro ha
      refine svalid_mono hlen2 ha ?_
      intro j hj0 hj
      exact (hchar1 j (a j) hj).mpr ⟨a, ha, rfl⟩
  have hfeas2 : feas groups cells2 0 0 := by
    obtain ⟨a, ha⟩ := h1.1.mp h1t
    exact ⟨a, (hequiv a).mpr ha⟩
  have h2t : (s2.update_state groups cells2).1 = true := h2.1.mpr hfeas2
  refine ⟨h2t, ?_⟩
  apply List.ext_getElem
  · rw [h2.2.2.2.2.2]
  · intro i hi1 hi2
    have hiN2 : i < cells2.length := hi2
    have hiN : i < cells.length := by
      rw [← hlen2]
      exact hiN2
    have hg1 : List.getD (s2.update_state groups cells2).2.1 i 0
        = (s2.update_state groups cells2).2.1[i] :=
      List.getD_eq_getElem _ 0 hi1
    have hg2 : List.getD cells2 i 0 = cells2[i] := List.getD_eq_getElem _ 0 hi2
    rw [← hg1, ← hg2]
    apply Nat.eq_of_testBit_eq
    intro b
    have e2 := h2.2.2.1 h2t i b hiN2
    have e2' : (List.getD (s2.update_state groups cells2).2.1 i 0).testBit b = true ↔
        ∃ a, SValid groups cells 0 0 a ∧ a i = b := by
      rw [e2]
      constructor
      · rintro ⟨a, ha2, haib⟩
        exact ⟨a, (hequiv a).mp ha2, haib⟩
      · rintro ⟨a, ha, haib⟩
        exact ⟨a, (hequiv a).mpr ha, haib⟩
    exact Bool.eq_iff_iff.mpr (e2'.trans (hchar1 i b hiN).symm)

theorem claim_C7_witness :
    StampLe (OneLineSolver.init 5) ∧
    ((OneLineSolver.init 5).update_state [(3, 1)] [3, 3, 3, 3, 3]).1 = true ∧
    ((((OneLineSolver.init 5).update_state [(3, 1)] [3, 3, 3, 3, 3]).2.2.update_state [(3, 1)]
        ((OneLineSolver.init 5).update_state [(3, 1)] [3, 3, 3, 3, 3]).2.1).1 = true
      ∧ (((OneLineSolver.init 5).update_state [(3, 1)] [3, 3, 3, 3, 3]).2.2.update_state [(3, 1)]
          ((OneLineSolver.init 5).update_state [(3, 1)] [3, 3, 3, 3, 3]).2.1).2.1
        = ((OneLineSolver.init 5).update_state [(3, 1)] [3, 3, 3, 3, 3]).2.1) :=
  ⟨init_stampLe 5, by decide,
    claim_C7 [(3, 1)] [3, 3, 3, 3, 3] (OneLineSolver.init 5) (init_stampLe 5) (by decide)⟩

/-- C8 counterexample: for groups [(1,1)] on the single-cell line [5]
(bits 0 and 2 available, but not the group color bit 1) the minimum span
equals the line length, yet after update_state the cell still carries two
possibility bits: the call returns false and leaves the line unchanged,
so it is not narrowed to exactly one color as stated. -/
theorem claim_C8_counterexample :
    minSpanFrom [(1, 1)] 0 = ([5] : Cells).length ∧
    ((OneLineSolver.init 1).update_state [(1, 1)] [5]).1 = false ∧
    ((OneLineSolver.init 1).update_state [(1, 1)] [5]).2.1 = [5] ∧
    Nat.testBit 5 0 = true ∧ Nat.testBit 5 2 = true := by decide

/-- C8 (amended): if the minimum span of the groups equals the line
length and update_state succeeds, every resulting cell mask is a single
power of two, i.e. each cell is narrowed to exactly one color. -/
theorem claim_C8 (groups : List (Nat × Nat)) (cells : Cells) (s : OneLineSolver)
    (hs : StampLe s) (hmin : minSpanFrom groups 0 = cells.length)
    (ht : (s.update_state groups cells).1 = true) (i : Nat) (hi : i < cells.length) :
    ∃ b, List.getD (s.update_state groups cells).2.1 i 0 = 1 <<< b := by
  have h := update_state_spec groups cells s hs
  obtain ⟨a0, ha0⟩ := h.1.mp ht
  refine ⟨a0 i, ?_⟩
  apply Nat.eq_of_testBit_eq
  intro b
  rw [Nat.shiftLeft_eq, one_mul, Nat.testBit_two_pow]
  have hchar := h.2.2.1 ht i b hi
  by_cases hab : a0 i = b
  · subst hab
    rw [decide_eq_true rfl]
    exact hchar.mpr ⟨a0, ha0, rfl⟩
  · rw [decide_eq_false hab]
    cases hx : (List.getD (s.update_state groups cells).2.1 i 0).testBit b
    · rfl
    · obtain ⟨a, ha, haib⟩ := hchar.mp hx
      have huniq := svalid_unique ha a0 ha0 (by omega) i (Nat.zero_le i) hi
      exact absurd (huniq.symm.trans haib) hab

theorem claim_C8_witness :
    StampLe (OneLineSolver.init 4) ∧
    minSpanFrom [(1, 1), (1, 1)] 0 = ([7, 7, 7] : Cells).length ∧
    ((OneLineSolver.init 4).update_state [(1, 1), (1, 1)] [7, 7, 7]).1 = true ∧
    (0 : Nat) < ([7, 7, 7] : Cells).length ∧
    (∃ b, List.getD ((OneLineSolver.init 4).update_state [(1, 1), (1, 1)] [7, 7, 7]).2.1 0 0
      = 1 <<< b) :=
  ⟨init_stampLe 4, by decide, by decide, by decide,
    claim_C8 [(1, 1), (1, 1)] [7, 7, 7] (OneLineSolver.init 4) (init_stampLe 4)
      (by decide) (by decide) 0 (by decide)⟩

/-- C9 counterexample: for the single-cell line [2] (background bit 0 not
available) with no groups, update_state returns false and leaves the line
unchanged instead of returning true with the cell narrowed to bit 0. -/
theorem claim_C9_counterexample :
    ((OneLineSolver.init 1).update_state [] [2]).1 = false ∧
    ((OneLineSolver.init 1).update_state [] [2]).2.1 = [2] := by decide

/-- C9 (amended): for a single-cell line whose cell still has the
background bit available, update_state with no groups returns true and
narrows the cell to exactly the background bit. -/
theorem claim_C9 (m : Nat) (hbit : Nat.testBit m 0 = true) :
    ((OneLineSolver.init 1).update_state [] [m]).1 = true ∧
    ((OneLineSolver.init 1).update_state [] [m]).2.1 = [1] := by
  have h := update_state_spec [] [m] (OneLineSolver.init 1) (init_stampLe 1)
  have ha0 : SValid [] [m] 0 0 (fun _ => 0) := by
    refine SValid.white 0 0 _ Nat.one_pos ?_ rfl ?_
    · exact hbit
    · exact SValid.base _
  have ht : ((OneLineSolver.init 1).update_state [] [m]).1 = true := h.1.mpr ⟨_, ha0⟩
  refine ⟨ht, ?_⟩
  apply List.ext_getElem
  · rw [h.2.2.2.2.2]
    rfl
  · intro i hi1 hi2
    have hi0 : i = 0 := by
      simp at hi2
      omega
    subst hi0
    have hg1 : List.getD ((OneLineSolver.init 1).update_state [] [m]).2.1 0 0
        = ((OneLineSolver.init 1).update_state [] [m]).2.1[0] :=
      List.getD_eq_getElem _ 0 hi1
    have hg2 : List.getD ([1] : Cells) 0 0 = ([1] : Cells)[0] := List.getD_eq_getElem _ 0 hi2
    rw [← hg1, ← hg2]
    apply Nat.eq_of_testBit_eq
    intro b
    have hchar := h.2.2.1 ht 0 b Nat.one_pos
    have hrhs : List.getD ([1] : Cells) 0 0 = 2 ^ 0 := by decide
    rw [hrhs, Nat.testBit_two_pow]
    by_cases hb : b = 0
    · subst hb
      rw [decide_eq_true rfl]
      exact hchar.mpr ⟨fun _ => 0, ha0, rfl⟩
    · rw [decide_eq_false (fun h0 => hb h0.symm)]
      cases hx : (List.getD ((OneLineSolver.init 1).update_state [] [m]).2.1 0 0).testBit b
      · rfl
      · obtain ⟨a, ha, haib⟩ := hchar.mp hx
        have ha00 : a 0 = 0 := by
          cases ha with
          | white _ _ _ _ _ ha' _ => exact ha'
          | groupSep _ _ _ hg _ _ _ _ _ _ _ => exact absurd hg (by decide)
          | groupLast _ _ _ hg _ _ _ _ _ => exact absurd hg (by decide)
        exact absurd (ha00.symm.trans haib) (fun h0 => hb h0.symm)

theorem claim_C9_witness :
    Nat.testBit 7 0 = true ∧
    ((OneLineSolver.init 1).update_state [] [7]).1 = true ∧
    ((OneLineSolver.init 1).update_state [] [7]).2.1 = [1] :=
  ⟨by decide, (claim_C9 7 (by decide)).1, (claim_C9 7 (by decide)).2⟩

end Nonogram
